import Mathlib

/-!
# Worker-pool pipeline (`main.go`)

A shallow embedding of the Go program: the pure string functions are Lean
functions, and the goroutines (coordinator `main`, the workers, the file
writer) are program counters in one `State`, advanced one statement at a time
by `step`.  Which goroutine moves next is chosen by the schedule, so a
property proved for every `Reachable` state holds for every interleaving.
Everything a goroutine does that can be observed (channel operations, log
lines, file calls) is appended to `State.trace`.
-/

namespace Pipeline

/-! ## Data model and pure functions -/

/-- `type Task struct { ID int; Data string }`. -/
structure Task where
  ID : Int
  Data : String
  deriving DecidableEq, Repr

/-- The ASCII path of `strings.ToUpper` on one byte: `c -= 'a' - 'A'` when
`'a' <= c && c <= 'z'`. -/
def asciiUpperChar (c : Char) : Char :=
  if 97 ≤ c.toNat ∧ c.toNat ≤ 122 then Char.ofNat (c.toNat - 32) else c

/-- `strings.ToUpper` on an ASCII-only string (the library's fast path); the
library function itself is a parameter `upper` of `Task.Process`. -/
def asciiUpper (s : String) : String :=
  String.mk (s.data.map asciiUpperChar)

/-- `func (t Task) Process() string`:
`fmt.Sprintf("Task %d processed: %s", t.ID, strings.ToUpper(t.Data))`.
The `time.Sleep` has no effect on the value. -/
def Task.Process (upper : String → String) (t : Task) : String :=
  "Task " ++ toString t.ID ++ " processed: " ++ upper t.Data

/-- The string a worker sends: `fmt.Sprintf("Worker %d: %s", id, output)`. -/
def workerLine (id : Int) (output : String) : String :=
  "Worker " ++ toString id ++ ": " ++ output

/-- The task the coordinator builds in its loop:
`Task{ID: i, Data: fmt.Sprintf("data_item_%d", i)}`. -/
def mkTask (i : Nat) : Task :=
  { ID := (i : Int), Data := "data_item_" ++ toString (i : Int) }

/-- What the writer passes to `f.WriteString`: `res + "\n"`. -/
def withNewline (res : String) : String :=
  res ++ "\n"

/-! ## Configuration -/

/-- The constants of `main` and the behaviour of the collaborators.
`process t` is the outcome of `task.Process()`: `.ok out`, or `.error r` when
the call panics with value `r`. -/
structure Config where
  numWorkers : Nat
  numJobs : Nat
  process : Task → Except String String
  createOk : Bool
  writeOk : Nat → Bool

/-- The `Process` method of the source: it never panics. -/
def sourceProcess (upper : String → String) (t : Task) : Except String String :=
  .ok (t.Process upper)

/-- The run of `main` as written: 4 workers, 20 jobs. -/
def referenceConfig (createOk : Bool) (writeOk : Nat → Bool) : Config :=
  { numWorkers := 4, numJobs := 20, process := sourceProcess asciiUpper,
    createOk := createOk, writeOk := writeOk }

/-! ## Channels -/

/-- A Go channel made by `make(chan T, cap)`: its buffer (head is the next
value received), its capacity, and whether `close` was called. -/
structure Chan (α : Type) where
  buf : List α
  cap : Nat
  closed : Bool
  deriving DecidableEq, Repr

/-! ## Observable events -/

/-- One observable action of a goroutine, in the order of `State.trace`. -/
inductive Event where
  /-- `go resultWriter(filename, results, writeDone)` -/
  | goWriter
  /-- `wg.Add(1)` -/
  | wgAdd
  /-- `go worker(w, jobs, results, &wg)` -/
  | goWorker (w : Nat)
  /-- `log.Println("Main: Sending tasks...")` -/
  | logSending
  /-- `jobs <- t` -/
  | enqueue (t : Task)
  /-- `close(jobs)` -/
  | closeJobs
  /-- `wg.Wait()` returns -/
  | wgWaitReturn
  /-- `close(results)` -/
  | closeResults
  /-- `<-writeDone` receives `b` -/
  | recvDone (b : Bool)
  /-- `log.Printf("All tasks completed. Check %s\n", filename)` -/
  | logCompleted
  /-- `main` returns -/
  | mainReturn
  /-- `log.Printf("Worker %d started\n", id)` -/
  | logStarted (w : Nat)
  /-- worker `w` receives `t` from `jobs` -/
  | dequeue (w : Nat) (t : Task)
  /-- `results <- line`, sent by worker `w` for task `t` -/
  | publish (w : Nat) (t : Task) (line : String)
  /-- `log.Printf("Worker %d recovered from error on task %d: %v\n", id, task.ID, r)` -/
  | logRecovered (w : Nat) (t : Task) (r : String)
  /-- `log.Printf("Worker %d finished\n", id)` -/
  | logFinished (w : Nat)
  /-- the deferred `wg.Done()` of worker `w` -/
  | wgDone (w : Nat)
  /-- `os.Create(filename)` succeeds -/
  | fileCreate
  /-- `log.Fatalf("Error creating file: %v", err)`: logs and exits the process -/
  | logFatal
  /-- the writer receives `res` from `results` -/
  | recvResult (res : String)
  /-- one call `f.WriteString(text)` and whether it succeeded -/
  | write (text : String) (ok : Bool)
  /-- `log.Printf("File write error: %v", err)` -/
  | logWriteError
  /-- `done <- b` -/
  | sendDone (b : Bool)
  /-- the deferred `f.Close()` -/
  | fileClose
  deriving DecidableEq, Repr

/-! ## Program counters -/

/-- Where `main` is. -/
inductive MainPc where
  /-- before `go resultWriter(...)` -/
  | goWriter
  /-- loop test `w <= numWorkers`, then `wg.Add(1)` -/
  | wgAdd (w : Nat)
  /-- before `go worker(w, ...)` -/
  | goWorker (w : Nat)
  /-- before `log.Println("Main: Sending tasks...")` -/
  | logSending
  /-- loop test `i <= numJobs`, then `jobs <- Task{...}` -/
  | enqueue (i : Nat)
  /-- before `close(jobs)` -/
  | closeJobs
  /-- at `wg.Wait()` -/
  | wgWait
  /-- before `close(results)` -/
  | closeResults
  /-- at `<-writeDone` -/
  | recvDone
  /-- before the final `log.Printf` -/
  | logCompleted
  /-- before returning from `main` -/
  | ret
  /-- `main` has returned: the process has exited -/
  | returned
  deriving DecidableEq, Repr

/-- Where a worker is. -/
inductive WorkerPc where
  /-- before `log.Printf("Worker %d started\n", id)` (the `defer wg.Done()` is registered) -/
  | start
  /-- at `for task := range jobs` -/
  | recv
  /-- inside the closure, before `task.Process()` -/
  | proc (t : Task)
  /-- inside the closure, before `results <- line` -/
  | send (t : Task) (line : String)
  /-- after the loop, before `log.Printf("Worker %d finished\n", id)` -/
  | finish
  /-- before the deferred `wg.Done()` -/
  | deferDone
  /-- the goroutine has ended -/
  | exited
  deriving DecidableEq, Repr

/-- A worker goroutine: its `id` argument and where it is. -/
structure Worker where
  id : Nat
  pc : WorkerPc
  deriving DecidableEq, Repr

/-- Where the writer is. -/
inductive WriterPc where
  /-- the goroutine is not started yet -/
  | notStarted
  /-- before `os.Create(filename)` -/
  | create
  /-- at `for res := range results` -/
  | loop
  /-- before `f.WriteString(res + "\n")` -/
  | write (res : String)
  /-- before `log.Printf("File write error: %v", err)` -/
  | logErr
  /-- at `done <- true` -/
  | sendDone
  /-- before the deferred `f.Close()` -/
  | deferClose
  /-- the goroutine has ended -/
  | exited
  deriving DecidableEq, Repr

/-! ## State -/

/-- The whole program state. -/
structure State where
  main : MainPc
  writer : WriterPc
  workers : List Worker
  jobs : Chan Task
  results : Chan String
  /-- the `sync.WaitGroup` counter -/
  wg : Nat
  /-- `log.Fatalf` ran: the process exited with status 1 -/
  fatal : Bool
  /-- an unrecovered panic ended the process -/
  panicked : Bool
  trace : List Event
  deriving DecidableEq, Repr

/-- The state when `main` has made its channels:
`jobs := make(chan Task, numJobs)`, `results := make(chan string, numJobs)`,
`writeDone := make(chan bool)`. -/
def init (cfg : Config) : State :=
  { main := .goWriter, writer := .notStarted, workers := [],
    jobs := { buf := [], cap := cfg.numJobs, closed := false },
    results := { buf := [], cap := cfg.numJobs, closed := false },
    wg := 0, fatal := false, panicked := false, trace := [] }

/-- The process has ended: `main` returned, `log.Fatalf` exited, or a panic
was not recovered.  No goroutine runs after that. -/
def halted (s : State) : Bool :=
  s.fatal || s.panicked || decide (s.main = .returned)

/-- The `f.WriteString` calls made so far, in order. -/
def writeCalls : List Event → List (String × Bool)
  | [] => []
  | .write text ok :: es => (text, ok) :: writeCalls es
  | _ :: es => writeCalls es

/-! ## Steps -/

/-- The rendezvous on the unbuffered `writeDone`: the writer is at
`done <- true` and `main` at `<-writeDone`. -/
def stepHandshake (s : State) : Option State :=
  if s.main = .recvDone ∧ s.writer = .sendDone then
    some { s with main := .logCompleted, writer := .deferClose,
                  trace := s.trace ++ [.sendDone true, .recvDone true] }
  else none

/-- One statement of `main`. -/
def stepMain (cfg : Config) (s : State) : Option State :=
  match s.main with
  | .goWriter =>
    some { s with main := .wgAdd 1, writer := .create, trace := s.trace ++ [.goWriter] }
  | .wgAdd w =>
    if w ≤ cfg.numWorkers then
      some { s with main := .goWorker w, wg := s.wg + 1, trace := s.trace ++ [.wgAdd] }
    else some { s with main := .logSending }
  | .goWorker w =>
    some { s with main := .wgAdd (w + 1),
                  workers := s.workers ++ [{ id := w, pc := .start }],
                  trace := s.trace ++ [.goWorker w] }
  | .logSending =>
    some { s with main := .enqueue 1, trace := s.trace ++ [.logSending] }
  | .enqueue i =>
    if i ≤ cfg.numJobs then
      if s.jobs.closed then some { s with panicked := true }
      else if s.jobs.buf.length < s.jobs.cap then
        some { s with main := .enqueue (i + 1),
                      jobs := { s.jobs with buf := s.jobs.buf ++ [mkTask i] },
                      trace := s.trace ++ [.enqueue (mkTask i)] }
      else none
    else some { s with main := .closeJobs }
  | .closeJobs =>
    if s.jobs.closed then some { s with panicked := true }
    else some { s with main := .wgWait, jobs := { s.jobs with closed := true },
                       trace := s.trace ++ [.closeJobs] }
  | .wgWait =>
    if s.wg = 0 then
      some { s with main := .closeResults, trace := s.trace ++ [.wgWaitReturn] }
    else none
  | .closeResults =>
    if s.results.closed then some { s with panicked := true }
    else some { s with main := .recvDone, results := { s.results with closed := true },
                       trace := s.trace ++ [.closeResults] }
  | .recvDone => stepHandshake s
  | .logCompleted =>
    some { s with main := .ret, trace := s.trace ++ [.logCompleted] }
  | .ret =>
    some { s with main := .returned, trace := s.trace ++ [.mainReturn] }
  | .returned => none

/-- One statement of the worker at index `k` of `State.workers`. -/
def stepWorker (cfg : Config) (k : Nat) (s : State) : Option State :=
  match s.workers[k]? with
  | none => none
  | some wk =>
    match wk.pc with
    | .start =>
      some { s with workers := s.workers.set k { wk with pc := .recv },
                    trace := s.trace ++ [.logStarted wk.id] }
    | .recv =>
      match s.jobs.buf with
      | t :: rest =>
        some { s with workers := s.workers.set k { wk with pc := .proc t },
                      jobs := { s.jobs with buf := rest },
                      trace := s.trace ++ [.dequeue wk.id t] }
      | [] =>
        if s.jobs.closed then
          some { s with workers := s.workers.set k { wk with pc := .finish } }
        else none
    | .proc t =>
      match cfg.process t with
      | .ok output =>
        some { s with workers := s.workers.set k
                        { wk with pc := .send t (workerLine (wk.id : Int) output) } }
      | .error r =>
        some { s with workers := s.workers.set k { wk with pc := .recv },
                      trace := s.trace ++ [.logRecovered wk.id t r] }
    | .send t line =>
      if s.results.closed then
        some { s with workers := s.workers.set k { wk with pc := .recv },
                      trace := s.trace ++ [.logRecovered wk.id t "send on closed channel"] }
      else if s.results.buf.length < s.results.cap then
        some { s with workers := s.workers.set k { wk with pc := .recv },
                      results := { s.results with buf := s.results.buf ++ [line] },
                      trace := s.trace ++ [.publish wk.id t line] }
      else none
    | .finish =>
      some { s with workers := s.workers.set k { wk with pc := .deferDone },
                    trace := s.trace ++ [.logFinished wk.id] }
    | .deferDone =>
      if s.wg = 0 then some { s with panicked := true }
      else
        some { s with workers := s.workers.set k { wk with pc := .exited },
                      wg := s.wg - 1,
                      trace := s.trace ++ [.wgDone wk.id] }
    | .exited => none

/-- One statement of `resultWriter`. -/
def stepWriter (cfg : Config) (s : State) : Option State :=
  match s.writer with
  | .notStarted => none
  | .create =>
    if cfg.createOk then
      some { s with writer := .loop, trace := s.trace ++ [.fileCreate] }
    else some { s with fatal := true, trace := s.trace ++ [.logFatal] }
  | .loop =>
    match s.results.buf with
    | res :: rest =>
      some { s with writer := .write res, results := { s.results with buf := rest },
                    trace := s.trace ++ [.recvResult res] }
    | [] =>
      if s.results.closed then some { s with writer := .sendDone } else none
  | .write res =>
    if cfg.writeOk (writeCalls s.trace).length then
      some { s with writer := .loop, trace := s.trace ++ [.write (withNewline res) true] }
    else
      some { s with writer := .logErr, trace := s.trace ++ [.write (withNewline res) false] }
  | .logErr =>
    some { s with writer := .loop, trace := s.trace ++ [.logWriteError] }
  | .sendDone => stepHandshake s
  | .deferClose =>
    some { s with writer := .exited, trace := s.trace ++ [.fileClose] }
  | .exited => none

/-- Who moves next. -/
inductive Actor where
  | main
  | writer
  | worker (k : Nat)
  deriving DecidableEq, Repr

/-- One step of the program: the chosen goroutine runs one statement, unless
the process has ended or the goroutine is blocked (`none`). -/
def step (cfg : Config) (a : Actor) (s : State) : Option State :=
  if halted s then none
  else
    match a with
    | .main => stepMain cfg s
    | .writer => stepWriter cfg s
    | .worker k => stepWorker cfg k s

/-- Run a schedule; `none` when a scheduled goroutine cannot move. -/
def run (cfg : Config) : List Actor → State → Option State
  | [], s => some s
  | a :: as, s => (step cfg a s).bind (run cfg as)

/-- The states some interleaving reaches. -/
inductive Reachable (cfg : Config) : State → Prop where
  | init : Reachable cfg (init cfg)
  | step {s s' : State} (a : Actor) : Reachable cfg s → step cfg a s = some s' →
      Reachable cfg s'

/-! ## The transitions, one constructor per branch of `step` -/

/-- The transitions of `step`, named: `Step cfg s s'` holds when some
goroutine's statement takes `s` to `s'`. -/
inductive Step (cfg : Config) : State → State → Prop where
  | goWriter (s : State) (hm : s.main = .goWriter) :
      Step cfg s { s with main := .wgAdd 1, writer := .create, trace := s.trace ++ [.goWriter] }
  | wgAdd (s : State) (w : Nat) (hm : s.main = .wgAdd w) (hw : w ≤ cfg.numWorkers) :
      Step cfg s { s with main := .goWorker w, wg := s.wg + 1, trace := s.trace ++ [.wgAdd] }
  | spawnEnd (s : State) (w : Nat) (hm : s.main = .wgAdd w) (hw : ¬ w ≤ cfg.numWorkers) :
      Step cfg s { s with main := .logSending }
  | goWorker (s : State) (w : Nat) (hm : s.main = .goWorker w) :
      Step cfg s { s with main := .wgAdd (w + 1),
                          workers := s.workers ++ [{ id := w, pc := .start }],
                          trace := s.trace ++ [.goWorker w] }
  | logSending (s : State) (hm : s.main = .logSending) :
      Step cfg s { s with main := .enqueue 1, trace := s.trace ++ [.logSending] }
  | enqueuePanic (s : State) (i : Nat) (hm : s.main = .enqueue i) (hi : i ≤ cfg.numJobs)
      (hc : s.jobs.closed = true) :
      Step cfg s { s with panicked := true }
  | enqueue (s : State) (i : Nat) (hm : s.main = .enqueue i) (hi : i ≤ cfg.numJobs)
      (hc : s.jobs.closed = false) (hfull : s.jobs.buf.length < s.jobs.cap) :
      Step cfg s { s with main := .enqueue (i + 1),
                          jobs := { s.jobs with buf := s.jobs.buf ++ [mkTask i] },
                          trace := s.trace ++ [.enqueue (mkTask i)] }
  | enqueueEnd (s : State) (i : Nat) (hm : s.main = .enqueue i) (hi : ¬ i ≤ cfg.numJobs) :
      Step cfg s { s with main := .closeJobs }
  | closeJobsPanic (s : State) (hm : s.main = .closeJobs) (hc : s.jobs.closed = true) :
      Step cfg s { s with panicked := true }
  | closeJobs (s : State) (hm : s.main = .closeJobs) (hc : s.jobs.closed = false) :
      Step cfg s { s with main := .wgWait, jobs := { s.jobs with closed := true },
                          trace := s.trace ++ [.closeJobs] }
  | wgWait (s : State) (hm : s.main = .wgWait) (hwg : s.wg = 0) :
      Step cfg s { s with main := .closeResults, trace := s.trace ++ [.wgWaitReturn] }
  | closeResultsPanic (s : State) (hm : s.main = .closeResults) (hc : s.results.closed = true) :
      Step cfg s { s with panicked := true }
  | closeResults (s : State) (hm : s.main = .closeResults) (hc : s.results.closed = false) :
      Step cfg s { s with main := .recvDone, results := { s.results with closed := true },
                          trace := s.trace ++ [.closeResults] }
  | handshake (s : State) (hm : s.main = .recvDone) (hw : s.writer = .sendDone) :
      Step cfg s { s with main := .logCompleted, writer := .deferClose,
                          trace := s.trace ++ [.sendDone true, .recvDone true] }
  | logCompleted (s : State) (hm : s.main = .logCompleted) :
      Step cfg s { s with main := .ret, trace := s.trace ++ [.logCompleted] }
  | ret (s : State) (hm : s.main = .ret) :
      Step cfg s { s with main := .returned, trace := s.trace ++ [.mainReturn] }
  | wStart (s : State) (k : Nat) (wk : Worker) (hk : s.workers[k]? = some wk)
      (hpc : wk.pc = .start) :
      Step cfg s { s with workers := s.workers.set k { wk with pc := .recv },
                          trace := s.trace ++ [.logStarted wk.id] }
  | wDequeue (s : State) (k : Nat) (wk : Worker) (hk : s.workers[k]? = some wk)
      (hpc : wk.pc = .recv) (t : Task) (rest : List Task) (hb : s.jobs.buf = t :: rest) :
      Step cfg s { s with workers := s.workers.set k { wk with pc := .proc t },
                          jobs := { s.jobs with buf := rest },
                          trace := s.trace ++ [.dequeue wk.id t] }
  | wLoopEnd (s : State) (k : Nat) (wk : Worker) (hk : s.workers[k]? = some wk)
      (hpc : wk.pc = .recv) (hb : s.jobs.buf = []) (hc : s.jobs.closed = true) :
      Step cfg s { s with workers := s.workers.set k { wk with pc := .finish } }
  | wProcOk (s : State) (k : Nat) (wk : Worker) (hk : s.workers[k]? = some wk)
      (t : Task) (hpc : wk.pc = .proc t) (output : String) (hp : cfg.process t = .ok output) :
      Step cfg s { s with workers := s.workers.set k
                            { wk with pc := .send t (workerLine (wk.id : Int) output) } }
  | wProcPanic (s : State) (k : Nat) (wk : Worker) (hk : s.workers[k]? = some wk)
      (t : Task) (hpc : wk.pc = .proc t) (r : String) (hp : cfg.process t = .error r) :
      Step cfg s { s with workers := s.workers.set k { wk with pc := .recv },
                          trace := s.trace ++ [.logRecovered wk.id t r] }
  | wSendClosed (s : State) (k : Nat) (wk : Worker) (hk : s.workers[k]? = some wk)
      (t : Task) (line : String) (hpc : wk.pc = .send t line) (hc : s.results.closed = true) :
      Step cfg s { s with workers := s.workers.set k { wk with pc := .recv },
                          trace := s.trace ++ [.logRecovered wk.id t "send on closed channel"] }
  | wSend (s : State) (k : Nat) (wk : Worker) (hk : s.workers[k]? = some wk)
      (t : Task) (line : String) (hpc : wk.pc = .send t line) (hc : s.results.closed = false)
      (hfull : s.results.buf.length < s.results.cap) :
      Step cfg s { s with workers := s.workers.set k { wk with pc := .recv },
                          results := { s.results with buf := s.results.buf ++ [line] },
                          trace := s.trace ++ [.publish wk.id t line] }
  | wFinish (s : State) (k : Nat) (wk : Worker) (hk : s.workers[k]? = some wk)
      (hpc : wk.pc = .finish) :
      Step cfg s { s with workers := s.workers.set k { wk with pc := .deferDone },
                          trace := s.trace ++ [.logFinished wk.id] }
  | wDonePanic (s : State) (k : Nat) (wk : Worker) (hk : s.workers[k]? = some wk)
      (hpc : wk.pc = .deferDone) (hwg : s.wg = 0) :
      Step cfg s { s with panicked := true }
  | wDone (s : State) (k : Nat) (wk : Worker) (hk : s.workers[k]? = some wk)
      (hpc : wk.pc = .deferDone) (hwg : ¬ s.wg = 0) :
      Step cfg s { s with workers := s.workers.set k { wk with pc := .exited },
                          wg := s.wg - 1,
                          trace := s.trace ++ [.wgDone wk.id] }
  | create (s : State) (hw : s.writer = .create) (hok : cfg.createOk = true) :
      Step cfg s { s with writer := .loop, trace := s.trace ++ [.fileCreate] }
  | createFail (s : State) (hw : s.writer = .create) (hok : cfg.createOk = false) :
      Step cfg s { s with fatal := true, trace := s.trace ++ [.logFatal] }
  | recvResult (s : State) (hw : s.writer = .loop) (res : String) (rest : List String)
      (hb : s.results.buf = res :: rest) :
      Step cfg s { s with writer := .write res, results := { s.results with buf := rest },
                          trace := s.trace ++ [.recvResult res] }
  | loopEnd (s : State) (hw : s.writer = .loop) (hb : s.results.buf = [])
      (hc : s.results.closed = true) :
      Step cfg s { s with writer := .sendDone }
  | writeOk (s : State) (res : String) (hw : s.writer = .write res)
      (hok : cfg.writeOk (writeCalls s.trace).length = true) :
      Step cfg s { s with writer := .loop, trace := s.trace ++ [.write (withNewline res) true] }
  | writeFail (s : State) (res : String) (hw : s.writer = .write res)
      (hok : cfg.writeOk (writeCalls s.trace).length = false) :
      Step cfg s { s with writer := .logErr,
                          trace := s.trace ++ [.write (withNewline res) false] }
  | logErr (s : State) (hw : s.writer = .logErr) :
      Step cfg s { s with writer := .loop, trace := s.trace ++ [.logWriteError] }
  | deferClose (s : State) (hw : s.writer = .deferClose) :
      Step cfg s { s with writer := .exited, trace := s.trace ++ [.fileClose] }

/-- Sum of a weight over the workers. -/
def wsum (f : Worker → Nat) (ws : List Worker) : Nat := (ws.map f).sum


/-! ## Invariants: definitions -/

@[simp]
def MainPc.jobsClosed : MainPc → Bool
  | .wgWait | .closeResults | .recvDone | .logCompleted | .ret | .returned => true
  | _ => false

@[simp]
def MainPc.joined : MainPc → Bool
  | .closeResults | .recvDone | .logCompleted | .ret | .returned => true
  | _ => false

@[simp]
def MainPc.resultsClosed : MainPc → Bool
  | .recvDone | .logCompleted | .ret | .returned => true
  | _ => false

@[simp]
def MainPc.handshaken : MainPc → Bool
  | .logCompleted | .ret | .returned => true
  | _ => false

@[simp]
def MainPc.spawned (n : Nat) : MainPc → Nat
  | .goWriter => 0
  | .wgAdd w => w - 1
  | .goWorker w => w - 1
  | _ => n

@[simp]
def MainPc.adding : MainPc → Nat
  | .goWorker _ => 1
  | _ => 0

@[simp]
def MainPc.spawnOk (n : Nat) : MainPc → Prop
  | .wgAdd w => 1 ≤ w ∧ w ≤ n + 1
  | .goWorker w => 1 ≤ w ∧ w ≤ n
  | _ => True

@[simp]
def WorkerPc.pastLoop : WorkerPc → Bool
  | .finish | .deferDone | .exited => true
  | _ => false

@[simp]
def live (wk : Worker) : Nat :=
  match wk.pc with
  | .exited => 0
  | _ => 1


@[simp]
def WriterPc.signalled : WriterPc → Bool
  | .deferClose | .exited => true
  | _ => false

/-- Facts that tie the channels and the writer to where `main` is. -/
structure InvMain (cfg : Config) (s : State) : Prop where
  jobsCap : s.jobs.cap = cfg.numJobs
  resultsCap : s.results.cap = cfg.numJobs
  jobsClosed : s.jobs.closed = s.main.jobsClosed
  resultsClosed : s.results.closed = s.main.resultsClosed
  workersLen : s.workers.length = s.main.spawned cfg.numWorkers
  spawnOk : s.main.spawnOk cfg.numWorkers
  writerStarted : (s.writer = .notStarted ↔ s.main = .goWriter)
  writerSignalled : s.writer.signalled = s.main.handshaken
  fatalCreate : s.fatal = true → cfg.createOk = false ∧ s.writer = .create

/-- Every spawned worker satisfies `P` (of its index and itself). -/
def AllW (P : Nat → Worker → Prop) (ws : List Worker) : Prop :=
  ∀ (k : Nat) (wk : Worker), ws[k]? = some wk → P k wk

/-- What holds of each worker at index `k`: its id, that it left the loop only
on a closed and drained `jobs`, and that it has ended once `wg.Wait()` returned. -/
def WorkerOk (s : State) (k : Nat) (wk : Worker) : Prop :=
  wk.id = k + 1 ∧
  (wk.pc.pastLoop = true → s.jobs.closed = true ∧ s.jobs.buf = []) ∧
  (s.main.joined = true → wk.pc = .exited)

/-- The pool invariant: no panic, the `WaitGroup` counter, and `WorkerOk`. -/
structure InvPool (cfg : Config) (s : State) : Prop where
  notPanicked : s.panicked = false
  wgCount : s.wg = wsum live s.workers + s.main.adding
  workers : AllW (WorkerOk s) s.workers

/-! ## Projections of the trace -/

/-- The task of a `jobs <- t` event. -/
@[simp]
def Event.asEnqueue : Event → Option Task
  | .enqueue t => some t
  | _ => none

/-- The worker and task of a receive from `jobs`. -/
@[simp]
def Event.asDequeue : Event → Option (Nat × Task)
  | .dequeue w t => some (w, t)
  | _ => none

/-- The worker, task and line of a `results <- line` event. -/
@[simp]
def Event.asPublish : Event → Option (Nat × Task × String)
  | .publish w t line => some (w, t, line)
  | _ => none

/-- The worker and task of a "recovered from error" log line. -/
@[simp]
def Event.asRecovered : Event → Option (Nat × Task)
  | .logRecovered w t _ => some (w, t)
  | _ => none

/-- The worker and task of an event that ends the handling of a task: the
result was sent, or the failure was logged. -/
@[simp]
def Event.asFinished : Event → Option (Nat × Task)
  | .publish w t _ => some (w, t)
  | .logRecovered w t _ => some (w, t)
  | _ => none

/-- The string of a receive from `results`. -/
@[simp]
def Event.asReceived : Event → Option String
  | .recvResult res => some res
  | _ => none

/-- The text and outcome of a `f.WriteString` call. -/
@[simp]
def Event.asWrite : Event → Option (String × Bool)
  | .write text ok => some (text, ok)
  | _ => none

/-- The tasks sent on `jobs`, in order. -/
def enqueued (tr : List Event) : List Task := tr.filterMap Event.asEnqueue

/-- The receives from `jobs`, in order. -/
def dequeued (tr : List Event) : List (Nat × Task) := tr.filterMap Event.asDequeue

/-- The sends on `results`, in order. -/
def published (tr : List Event) : List (Nat × Task × String) := tr.filterMap Event.asPublish

/-- The failure diagnostics logged by the recover boundary, in order. -/
def recovered (tr : List Event) : List (Nat × Task) := tr.filterMap Event.asRecovered

/-- The tasks whose handling ended (sent or logged as failed), in order. -/
def finished (tr : List Event) : List (Nat × Task) := tr.filterMap Event.asFinished

/-- The strings the writer received from `results`, in order. -/
def received (tr : List Event) : List String := tr.filterMap Event.asReceived

/-- The tasks `main` sends: `Task{1, "data_item_1"}`, ..., `Task{n, "data_item_n"}`. -/
def tasksUpTo (n : Nat) : List Task := (List.range' 1 n).map mkTask

/-- How many tasks `main` has sent, from where it is. -/
@[simp]
def MainPc.sent (numJobs : Nat) : MainPc → Nat
  | .goWriter | .wgAdd _ | .goWorker _ | .logSending => 0
  | .enqueue i => i - 1
  | _ => numJobs

/-- The loop variable `i` stays in `1 ..= numJobs + 1`. -/
@[simp]
def MainPc.enqueueOk (numJobs : Nat) : MainPc → Prop
  | .enqueue i => 1 ≤ i ∧ i ≤ numJobs + 1
  | _ => True

/-- The string the writer holds between the receive and the write. -/
@[simp]
def WriterPc.pending : WriterPc → List String
  | .write res => [res]
  | _ => []

/-- The channels are FIFO queues between the traces of their two ends. -/
structure InvFifo (cfg : Config) (s : State) : Prop where
  enqueueOk : s.main.enqueueOk cfg.numJobs
  sentTasks : enqueued s.trace = tasksUpTo (s.main.sent cfg.numJobs)
  jobsFifo : enqueued s.trace = (dequeued s.trace).map Prod.snd ++ s.jobs.buf
  resultsFifo : (published s.trace).map (fun e => e.2.2) = received s.trace ++ s.results.buf
  writerFifo : (received s.trace).map withNewline =
    (writeCalls s.trace).map Prod.fst ++ s.writer.pending.map withNewline

/-! ## Work in progress -/

/-- The task a worker holds between the receive and the end of the closure. -/
@[simp]
def WorkerPc.held : WorkerPc → List Task
  | .proc t => [t]
  | .send t _ => [t]
  | _ => []

/-- Sum of a weight over a list of tasks. -/
def total (f : Task → Nat) (l : List Task) : Nat := (l.map f).sum

/-- Every received task is held by one worker or its handling has ended, for
every way `f` of weighing tasks (counting one task, counting all). -/
def InvWork (s : State) : Prop :=
  ∀ f : Task → Nat,
    total f ((dequeued s.trace).map Prod.snd) =
      wsum (fun wk => total f wk.pc.held) s.workers + total f ((finished s.trace).map Prod.snd)

/-! ## Per-worker facts -/

/-- The worker an event belongs to, for the events of a worker goroutine. -/
@[simp]
def Event.worker : Event → Option Nat
  | .logStarted w => some w
  | .dequeue w _ => some w
  | .publish w _ _ => some w
  | .logRecovered w _ _ => some w
  | .logFinished w => some w
  | .wgDone w => some w
  | _ => none

/-- Worker events carry the id of a spawned worker. -/
def InvIds (s : State) : Prop :=
  ∀ e ∈ s.trace, ∀ w : Nat, e.worker = some w → 1 ≤ w ∧ w ≤ s.workers.length

/-- The tasks of the entries of worker `w`, in order. -/
def byWorker (w : Nat) (l : List (Nat × Task)) : List Task :=
  (l.filter (fun e => decide (e.1 = w))).map Prod.snd

/-- How many times worker `w` ran its deferred `wg.Done()`. -/
def doneCount (w : Nat) (tr : List Event) : Nat :=
  tr.count (Event.wgDone w)

/-- A worker handles its tasks one at a time, in the order it received them;
it has called `wg.Done()` once exactly when it has ended; the line it is about
to send is the formatted output of `Process` on the task it holds. -/
def WorkerSeq (cfg : Config) (s : State) (k : Nat) (wk : Worker) : Prop :=
  byWorker (k + 1) (dequeued s.trace) = byWorker (k + 1) (finished s.trace) ++ wk.pc.held ∧
  doneCount (k + 1) s.trace = (if wk.pc = .exited then 1 else 0) ∧
  (∀ (t : Task) (line : String), wk.pc = .send t line →
    ∃ out, cfg.process t = .ok out ∧ line = workerLine (wk.id : Int) out)

/-! ## Events of the coordinator and of the writer -/

/-- An action of the coordinator on the `jobs` channel. -/
inductive JobsAct where
  | enqueue (t : Task)
  | close
  deriving DecidableEq, Repr

/-- The action on `jobs` an event of `main` is, if any. -/
@[simp]
def Event.asJobsAct : Event → Option JobsAct
  | .enqueue t => some (.enqueue t)
  | .closeJobs => some .close
  | _ => none

/-- The coordinator's actions on `jobs`, in order. -/
def jobsActs (tr : List Event) : List JobsAct := tr.filterMap Event.asJobsAct

/-- The number written as 1 when `b` holds and 0 otherwise. -/
@[simp]
def ind (b : Bool) : Nat := if b then 1 else 0

/-- `main` has logged "All tasks completed". -/
@[simp]
def MainPc.reported : MainPc → Bool
  | .ret | .returned => true
  | _ => false

/-- `main` has returned. -/
@[simp]
def MainPc.isReturned : MainPc → Bool
  | .returned => true
  | _ => false

/-- The writer has created the file. -/
@[simp]
def WriterPc.created : WriterPc → Bool
  | .notStarted | .create => false
  | _ => true

/-- The writer has closed the file. -/
@[simp]
def WriterPc.closedFile : WriterPc → Bool
  | .exited => true
  | _ => false

/-- The writer is about to log a write error. -/
@[simp]
def WriterPc.owesLog : WriterPc → Bool
  | .logErr => true
  | _ => false

/-- The event is `wg.Wait()` returning. -/
@[simp]
def Event.isWgWaitReturn : Event → Bool
  | .wgWaitReturn => true
  | _ => false

/-- The event is `close(results)`. -/
@[simp]
def Event.isCloseResults : Event → Bool
  | .closeResults => true
  | _ => false

/-- The event is the "All tasks completed" log line. -/
@[simp]
def Event.isLogCompleted : Event → Bool
  | .logCompleted => true
  | _ => false

/-- The event is a send on `done`. -/
@[simp]
def Event.isSendDone : Event → Bool
  | .sendDone _ => true
  | _ => false

/-- The event is a successful `os.Create`. -/
@[simp]
def Event.isFileCreate : Event → Bool
  | .fileCreate => true
  | _ => false

/-- The event is `f.Close()`. -/
@[simp]
def Event.isFileClose : Event → Bool
  | .fileClose => true
  | _ => false

/-- The event is the `log.Fatalf` line. -/
@[simp]
def Event.isLogFatal : Event → Bool
  | .logFatal => true
  | _ => false

/-- The event is a "File write error" log line. -/
@[simp]
def Event.isLogWriteError : Event → Bool
  | .logWriteError => true
  | _ => false

/-- The event is `done <- false`. -/
@[simp]
def Event.isSendFalse : Event → Bool
  | .sendDone false => true
  | _ => false

/-- The failed `WriteString` calls. -/
def failedWrites (tr : List Event) : List (String × Bool) :=
  (writeCalls tr).filter (fun c => !c.2)

/-- The coordinator's actions on `jobs` so far: the tasks sent, then the close. -/
def InvJobsActs (cfg : Config) (s : State) : Prop :=
  jobsActs s.trace =
    (tasksUpTo (s.main.sent cfg.numJobs)).map JobsAct.enqueue ++
      (if s.main.jobsClosed then [JobsAct.close] else [])

structure InvCount (cfg : Config) (s : State) : Prop where
  wgWaitReturn : s.trace.countP Event.isWgWaitReturn = ind s.main.joined
  closeResults : s.trace.countP Event.isCloseResults = ind s.main.resultsClosed
  logCompleted : s.trace.countP Event.isLogCompleted = ind s.main.reported
  sendDone : s.trace.countP Event.isSendDone = ind s.writer.signalled
  sendFalse : s.trace.countP Event.isSendFalse = 0
  fileCreate : s.trace.countP Event.isFileCreate = ind s.writer.created
  fileClose : s.trace.countP Event.isFileClose = ind s.writer.closedFile
  logFatal : s.trace.countP Event.isLogFatal = ind s.fatal
  logWriteError : s.trace.countP Event.isLogWriteError + ind s.writer.owesLog =
    (failedWrites s.trace).length

/-- Every line sent on `results` is the formatted output of `Process` on its
task, and every logged failure is of a task on which `Process` panics. -/
structure InvEv (cfg : Config) (s : State) : Prop where
  published : ∀ e ∈ published s.trace,
    ∃ out, cfg.process e.2.1 = .ok out ∧ e.2.2 = workerLine (e.1 : Int) out
  recovered : ∀ e ∈ recovered s.trace, ∃ r, cfg.process e.2 = .error r

/-! ## Termination measure -/

/-- Statements `main` still has to run, weighted so that each step of the
program lowers `measure`. -/
@[simp]
def mainRank (cfg : Config) : MainPc → Nat
  | .returned => 0
  | .ret => 1
  | .logCompleted => 2
  | .recvDone => 3
  | .closeResults => 4
  | .wgWait => 5
  | .closeJobs => 6
  | .enqueue i => 7 + 7 * (cfg.numJobs + 1 - i)
  | .logSending => 8 + 7 * cfg.numJobs
  | .goWorker w => 8 + 7 * cfg.numJobs + 6 * (cfg.numWorkers + 1 - w)
  | .wgAdd w => 9 + 7 * cfg.numJobs + 6 * (cfg.numWorkers + 1 - w)
  | .goWriter => 10 + 7 * cfg.numJobs + 6 * cfg.numWorkers

/-- Weight of a worker's program counter. -/
@[simp]
def workerRank (wk : Worker) : Nat :=
  match wk.pc with
  | .exited => 0
  | .deferDone => 1
  | .finish => 2
  | .recv => 3
  | .start => 4
  | .send _ _ => 7
  | .proc _ => 8

/-- Weight of the writer's program counter. -/
@[simp]
def writerRank : WriterPc → Nat
  | .exited => 0
  | .deferClose => 1
  | .sendDone => 2
  | .loop => 3
  | .logErr => 4
  | .write _ => 5
  | .create => 6
  | .notStarted => 7

/-- A bound on the number of steps the program can still take. -/
def measure (cfg : Config) (s : State) : Nat :=
  mainRank cfg s.main + writerRank s.writer + wsum workerRank s.workers +
    6 * s.jobs.buf.length + 3 * s.results.buf.length +
    (if s.fatal || s.panicked then 0 else 1)

/-! ## Vocabulary of the claims -/

/-- How many times task `t` was received from `jobs` (by any worker). -/
def dequeuesOf (t : Task) (tr : List Event) : Nat :=
  ((dequeued tr).map Prod.snd).count t

/-- How many result lines for task `t` were sent on `results`. -/
def resultsFor (t : Task) (tr : List Event) : Nat :=
  ((published tr).map (fun e => e.2.1)).count t

/-- How many failure diagnostics for task `t` the recover boundary logged. -/
def failuresFor (t : Task) (tr : List Event) : Nat :=
  ((recovered tr).map Prod.snd).count t

/-- A small run used to exercise the theorems: one worker, two jobs, the
`Process` of the source, a file that is created and whose second write fails. -/
def demoConfig : Config :=
  { numWorkers := 1, numJobs := 2, process := sourceProcess asciiUpper,
    createOk := true, writeOk := fun k => decide (k = 0) }

/-- A complete schedule of `demoConfig`: `main` runs until it waits, the
worker handles both tasks, the writer drains `results`, `main` returns. -/
def demoSchedule : List Actor :=
  [.main, .main, .main, .main, .main, .main, .main, .main, .main,
   .worker 0, .worker 0, .worker 0, .worker 0, .worker 0, .worker 0, .worker 0,
   .worker 0, .worker 0, .worker 0,
   .main, .main,
   .writer, .writer, .writer, .writer, .writer, .writer, .writer, .writer,
   .main, .main]

/-- The state `demoSchedule` ends in. -/
def demoFinal : State :=
  (run demoConfig demoSchedule (init demoConfig)).getD (init demoConfig)

/-- The writer has left its loop. -/
@[simp]
def WriterPc.pastLoop : WriterPc → Bool
  | .sendDone | .deferClose | .exited => true
  | _ => false

/-- In the trace, `close(results)` comes after `wg.Wait()` returned and after
each of the `numWorkers` workers ran `wg.Done()` exactly once, and no send on
`results` comes after it. -/
def CloseAfterJoin (cfg : Config) (tr : List Event) : Prop :=
  ∀ pre post : List Event, tr = pre ++ Event.closeResults :: post →
    Event.wgWaitReturn ∈ pre ∧
    (∀ w : Nat, 1 ≤ w → w ≤ cfg.numWorkers → doneCount w pre = 1) ∧
    published post = []

/-- `Process` panics on `t`. -/
def panics (cfg : Config) (t : Task) : Bool :=
  match cfg.process t with
  | .error _ => true
  | .ok _ => false

/-- The tasks of the run on which `Process` panics (the set `F`). -/
def failing (cfg : Config) : List Task :=
  (tasksUpTo cfg.numJobs).filter (panics cfg)

/-- The demo run with fault injection: `Process` panics on task 2. -/
def faultyConfig : Config :=
  { numWorkers := 1, numJobs := 2,
    process := fun t => if t.ID = 2 then .error "injected" else sourceProcess asciiUpper t,
    createOk := true, writeOk := fun _ => true }

/-- A complete schedule of `faultyConfig`. -/
def faultySchedule : List Actor :=
  [.main, .main, .main, .main, .main, .main, .main, .main, .main,
   .worker 0, .worker 0, .worker 0, .worker 0, .worker 0, .worker 0, .worker 0,
   .worker 0, .worker 0,
   .main, .main,
   .writer, .writer, .writer, .writer, .writer,
   .main, .main]

/-- The state `faultySchedule` ends in. -/
def faultyFinal : State :=
  (run faultyConfig faultySchedule (init faultyConfig)).getD (init faultyConfig)

/-- A prefix of the reference run: `main` starts the writer and the four
workers and sends task 1; worker 1 handles it; the writer writes its line. -/
def referenceSchedule : List Actor :=
  [.main, .main, .main, .main, .main, .main, .main, .main, .main, .main, .main, .main,
   .worker 0, .worker 0, .worker 0, .worker 0,
   .writer, .writer, .writer]

/-- The state `referenceSchedule` reaches. -/
def referenceState : State :=
  (run (referenceConfig true (fun _ => true)) referenceSchedule
    (init (referenceConfig true (fun _ => true)))).getD
    (init (referenceConfig true (fun _ => true)))

/-- What the writer does with the records `rs`, from its `k`-th `WriteString`
call on: for each record the receive, one write of `res + "\n"`, and the
"File write error" log line when that write fails. -/
def writerEvents (writeOk : Nat → Bool) : Nat → List String → List Event
  | _, [] => []
  | k, res :: rs =>
    [Event.recvResult res, Event.write (withNewline res) (writeOk k)] ++
      (if writeOk k then [] else [Event.logWriteError]) ++ writerEvents writeOk (k + 1) rs
/-- The demo run stopped when the writer has created the file, both result
lines are buffered and `results` is closed. -/
def demoMid : State :=
  (run demoConfig (demoSchedule.take 22) (init demoConfig)).getD (init demoConfig)

/-! # Theorems -/

/-! ## Case analysis of a step -/

theorem step_sound {cfg : Config} {a : Actor} {s s' : State} (h : step cfg a s = some s') :
    halted s = false ∧ Step cfg s s' := by
  unfold step at h
  split at h
  · simp at h
  · rename_i hh
    refine ⟨by simpa using hh, ?_⟩
    cases a with
    | main =>
      dsimp only at h
      unfold stepMain stepHandshake at h
      repeat' split at h
      all_goals simp only [Option.some.injEq, reduceCtorEq] at h
      all_goals subst h
      · exact .goWriter _ ‹_›
      · exact .wgAdd _ _ ‹_› ‹_›
      · exact .spawnEnd _ _ ‹_› ‹_›
      · exact .goWorker _ _ ‹_›
      · exact .logSending _ ‹_›
      · exact .enqueuePanic _ _ ‹_› ‹_› ‹_›
      · exact .enqueue _ _ ‹_› ‹_› (by simpa using ‹¬ _ = true›) ‹_›
      · exact .enqueueEnd _ _ ‹_› ‹_›
      · exact .closeJobsPanic _ ‹_› ‹_›
      · exact .closeJobs _ ‹_› (by simpa using ‹¬ _ = true›)
      · exact .wgWait _ ‹_› ‹_›
      · exact .closeResultsPanic _ ‹_› ‹_›
      · exact .closeResults _ ‹_› (by simpa using ‹¬ _ = true›)
      · exact .handshake _ (by tauto) (by tauto)
      · exact .logCompleted _ ‹_›
      · exact .ret _ ‹_›
    | writer =>
      dsimp only at h
      unfold stepWriter stepHandshake at h
      repeat' split at h
      all_goals simp only [Option.some.injEq, reduceCtorEq] at h
      all_goals subst h
      · exact .create _ ‹_› ‹_›
      · exact .createFail _ ‹_› (by simpa using ‹¬ _ = true›)
      · exact .recvResult _ ‹_› _ _ ‹_›
      · exact .loopEnd _ ‹_› ‹_› ‹_›
      · exact .writeOk _ _ ‹_› ‹_›
      · exact .writeFail _ _ ‹_› (by simpa using ‹¬ _ = true›)
      · exact .logErr _ ‹_›
      · exact .handshake _ (by tauto) (by tauto)
      · exact .deferClose _ ‹_›
    | worker k =>
      dsimp only at h
      unfold stepWorker at h
      repeat' split at h
      all_goals simp only [Option.some.injEq, reduceCtorEq] at h
      all_goals subst h
      · exact .wStart _ _ _ ‹_› ‹_›
      · exact .wDequeue _ _ _ ‹_› ‹_› _ _ ‹_›
      · exact .wLoopEnd _ _ _ ‹_› ‹_› ‹_› ‹_›
      · exact .wProcOk _ _ _ ‹_› _ ‹_› _ ‹_›
      · exact .wProcPanic _ _ _ ‹_› _ ‹_› _ ‹_›
      · exact .wSendClosed _ _ _ ‹_› _ _ ‹_› ‹_›
      · exact .wSend _ _ _ ‹_› _ _ ‹_› (by simpa using ‹¬ _ = true›) ‹_›
      · exact .wFinish _ _ _ ‹_› ‹_›
      · exact .wDonePanic _ _ _ ‹_› ‹_› ‹_›
      · exact .wDone _ _ _ ‹_› ‹_› ‹_›

/-! ## Sums over the workers -/

theorem wsum_nil (f : Worker → Nat) : wsum f [] = 0 := rfl

theorem wsum_append (f : Worker → Nat) (l₁ l₂ : List Worker) :
    wsum f (l₁ ++ l₂) = wsum f l₁ + wsum f l₂ := by
  simp [wsum]

theorem wsum_set (f : Worker → Nat) :
    ∀ (l : List Worker) (k : Nat) (a b : Worker), l[k]? = some a →
      wsum f (l.set k b) + f a = wsum f l + f b
  | [], k, a, b, h => by simp at h
  | x :: l, 0, a, b, h => by
    simp at h; subst h; simp [wsum]; omega
  | x :: l, k + 1, a, b, h => by
    simp at h
    have := wsum_set f l k a b h
    simp [wsum] at this ⊢; omega

theorem le_wsum (f : Worker → Nat) :
    ∀ (l : List Worker) (k : Nat) (a : Worker), l[k]? = some a → f a ≤ wsum f l
  | [], k, a, h => by simp at h
  | x :: l, 0, a, h => by simp at h; subst h; simp [wsum]
  | x :: l, k + 1, a, h => by
    simp at h
    have := le_wsum f l k a h
    simp [wsum] at this ⊢; omega

theorem exists_of_wsum_pos (f : Worker → Nat) :
    ∀ (l : List Worker), 0 < wsum f l → ∃ (k : Nat) (a : Worker), l[k]? = some a ∧ 0 < f a
  | [], h => by simp [wsum] at h
  | x :: l, h => by
    by_cases hx : 0 < f x
    · exact ⟨0, x, by simp, hx⟩
    · have : 0 < wsum f l := by simp [wsum] at h ⊢; omega
      obtain ⟨k, a, h1, h2⟩ := exists_of_wsum_pos f l this
      exact ⟨k + 1, a, by simpa using h1, h2⟩

/-! ## Control invariants -/

theorem invMain_step {cfg : Config} {s s' : State} (ih : InvMain cfg s) (hst : Step cfg s s') :
    InvMain cfg s' := by
  obtain ⟨i1, i2, i3, i4, i5, i6, i7, i8, i9⟩ := ih
  cases hst <;> (constructor <;> dsimp only <;> first | assumption | (simp_all; done) | (simp_all; omega))

theorem invMain {cfg : Config} {s : State} (h : Reachable cfg s) : InvMain cfg s := by
  induction h with
  | init => constructor <;> simp [init]
  | step a _ hs ih => exact invMain_step ih (step_sound hs).2

theorem AllW.nil (P : Nat → Worker → Prop) : AllW P [] := by
  intro k wk h; simp at h

theorem AllW.snoc {P : Nat → Worker → Prop} {ws : List Worker} {b : Worker}
    (h : AllW P ws) (hb : P ws.length b) : AllW P (ws ++ [b]) := by
  intro k wk hk
  rcases Nat.lt_trichotomy k ws.length with hlt | heq | hgt
  · rw [List.getElem?_append_left hlt] at hk; exact h k wk hk
  · subst heq; simp at hk; subst hk; exact hb
  · rw [List.getElem?_append_right (by omega)] at hk
    have : k - ws.length ≠ 0 := by omega
    obtain ⟨n, hn⟩ := Nat.exists_eq_succ_of_ne_zero this
    rw [hn] at hk; simp at hk

theorem AllW.set {P Q : Nat → Worker → Prop} {ws : List Worker} {k : Nat} {b : Worker}
    (h : AllW P ws) (hb : Q k b)
    (hmono : ∀ (j : Nat) (wk : Worker), j ≠ k → P j wk → Q j wk) :
    AllW Q (ws.set k b) := by
  intro j wk hj
  rw [List.getElem?_set] at hj
  split at hj
  · subst_vars
    split at hj
    · simp at hj; subst hj; exact hb
    · simp at hj
  · exact hmono j wk (by omega) (h j wk hj)

theorem AllW.imp {P Q : Nat → Worker → Prop} {ws : List Worker}
    (h : AllW P ws) (hmono : ∀ (j : Nat) (wk : Worker), P j wk → Q j wk) : AllW Q ws :=
  fun j wk hj => hmono j wk (h j wk hj)



theorem live_eq_zero {wk : Worker} (h : live wk = 0) : wk.pc = .exited := by
  unfold live at h
  split at h
  · assumption
  · simp at h

theorem live_of_ne {wk : Worker} (h : wk.pc ≠ .exited) : live wk = 1 := by
  unfold live
  split
  · contradiction
  · rfl

/-- A step that leaves the workers, the counter and `jobs` alone keeps the pool invariant. -/
theorem invPool_frame {cfg : Config} {s s' : State} (ih : InvPool cfg s)
    (hws : s'.workers = s.workers) (hwg : s'.wg = s.wg) (hjobs : s'.jobs = s.jobs)
    (hpan : s'.panicked = s.panicked) (hadd : s'.main.adding = s.main.adding)
    (hj : s'.main.joined = true → s.main.joined = true) : InvPool cfg s' := by
  obtain ⟨i1, i2, i3⟩ := ih
  refine ⟨by rw [hpan]; exact i1, by rw [hwg, hws, hadd]; exact i2, ?_⟩
  rw [hws]
  refine i3.imp ?_
  intro j wk h
  refine ⟨h.1, ?_, fun hh => h.2.2 (hj hh)⟩
  rw [hjobs]; exact h.2.1

/-- A statement of the worker at index `k` keeps the pool invariant. -/
theorem invPool_worker {cfg : Config} {s s' : State} (ih : InvPool cfg s)
    (k : Nat) (wk : Worker) (pc' : WorkerPc) (hk : s.workers[k]? = some wk)
    (hlive : wk.pc ≠ .exited)
    (hws : s'.workers = s.workers.set k { wk with pc := pc' })
    (hmain : s'.main = s.main) (hpan : s'.panicked = s.panicked)
    (hwg : s'.wg + 1 = s.wg + live { wk with pc := pc' })
    (hclosed : s'.jobs.closed = s.jobs.closed) (hbuf : s.jobs.buf = [] → s'.jobs.buf = [])
    (hpast : pc'.pastLoop = true → s'.jobs.closed = true ∧ s'.jobs.buf = []) :
    InvPool cfg s' := by
  obtain ⟨i1, i2, i3⟩ := ih
  have hnj : ¬ s.main.joined = true := fun hj => hlive ((i3 k wk hk).2.2 hj)
  refine ⟨by rw [hpan]; exact i1, ?_, ?_⟩
  · have h1 := wsum_set live s.workers k wk { wk with pc := pc' } hk
    rw [live_of_ne hlive] at h1
    rw [hws, hmain]; omega
  · rw [hws]
    refine AllW.set i3 ⟨(i3 k wk hk).1, hpast, ?_⟩ ?_
    · rw [hmain]; intro hj; exact absurd hj hnj
    · intro j w _ h
      refine ⟨h.1, ?_, ?_⟩
      · intro hp
        obtain ⟨h1, h2⟩ := h.2.1 hp
        exact ⟨by rw [hclosed]; exact h1, hbuf h2⟩
      · rw [hmain]; exact h.2.2

theorem invPool_step {cfg : Config} {s s' : State} (hm : InvMain cfg s) (ih : InvPool cfg s)
    (hst : Step cfg s s') : InvPool cfg s' := by
  cases hst with
  | goWorker w hmain =>
    obtain ⟨i1, i2, i3⟩ := ih
    refine ⟨i1, ?_, ?_⟩
    · simp only [hmain, MainPc.adding] at i2
      have h1 : wsum live [({ id := w, pc := .start } : Worker)] = 1 := rfl
      simp only [wsum_append, MainPc.adding, h1]; omega
    · refine AllW.snoc (i3.imp ?_) ?_
      · intro j wk h
        refine ⟨h.1, h.2.1, ?_⟩
        intro hj; simp at hj
      · have h5 := hm.workersLen
        have h6 := hm.spawnOk
        simp only [hmain, MainPc.spawned, MainPc.spawnOk] at h5 h6
        refine ⟨?_, ?_, ?_⟩
        · show w = _; omega
        · intro hp; simp at hp
        · intro hj; simp at hj
  | wgAdd w hmain hw =>
    obtain ⟨i1, i2, i3⟩ := ih
    refine ⟨i1, ?_, ?_⟩
    · simp only [hmain, MainPc.adding] at i2
      simp only [MainPc.adding]; omega
    · refine i3.imp ?_
      intro j wk h
      refine ⟨h.1, h.2.1, ?_⟩
      intro hj; simp at hj
  | enqueuePanic i hmain hi hc =>
    have := hm.jobsClosed; simp [hmain, hc] at this
  | closeJobsPanic hmain hc =>
    have := hm.jobsClosed; simp [hmain, hc] at this
  | closeResultsPanic hmain hc =>
    have := hm.resultsClosed; simp [hmain, hc] at this
  | wDonePanic k wk hk hpc hwg =>
    have h1 := ih.wgCount
    have h2 := le_wsum live s.workers k wk hk
    have h3 : live wk = 1 := live_of_ne (by rw [hpc]; simp)
    omega
  | enqueue i hmain hi hc hfull =>
    obtain ⟨i1, i2, i3⟩ := ih
    refine ⟨i1, ?_, ?_⟩
    · simp only [hmain, MainPc.adding] at i2
      simpa using i2
    · refine i3.imp ?_
      intro j wk h
      refine ⟨h.1, ?_, ?_⟩
      · intro hp; have := (h.2.1 hp).1; simp [hc] at this
      · intro hj; simp at hj
  | closeJobs hmain hc =>
    obtain ⟨i1, i2, i3⟩ := ih
    refine ⟨i1, ?_, ?_⟩
    · simp only [hmain, MainPc.adding] at i2
      simpa using i2
    · refine i3.imp ?_
      intro j wk h
      refine ⟨h.1, ?_, ?_⟩
      · intro hp; have := (h.2.1 hp).1; simp [hc] at this
      · intro hj; simp at hj
  | wgWait hmain hwg =>
    obtain ⟨i1, i2, i3⟩ := ih
    refine ⟨i1, ?_, ?_⟩
    · simp only [hmain, MainPc.adding] at i2
      simpa using i2
    · intro j wk hj
      refine ⟨(i3 j wk hj).1, (i3 j wk hj).2.1, ?_⟩
      intro _
      have h2 := le_wsum live s.workers j wk hj
      exact live_eq_zero (by omega)
  | goWriter hmain => exact invPool_frame ih rfl rfl rfl rfl (by simp [hmain]) (by simp)
  | spawnEnd w hmain hw => exact invPool_frame ih rfl rfl rfl rfl (by simp [hmain]) (by simp)
  | logSending hmain => exact invPool_frame ih rfl rfl rfl rfl (by simp [hmain]) (by simp)
  | enqueueEnd i hmain hi => exact invPool_frame ih rfl rfl rfl rfl (by simp [hmain]) (by simp)
  | closeResults hmain hc => exact invPool_frame ih rfl rfl rfl rfl (by simp [hmain]) (by simp [hmain])
  | handshake hmain hw => exact invPool_frame ih rfl rfl rfl rfl (by simp [hmain]) (by simp [hmain])
  | logCompleted hmain => exact invPool_frame ih rfl rfl rfl rfl (by simp [hmain]) (by simp [hmain])
  | ret hmain => exact invPool_frame ih rfl rfl rfl rfl (by simp [hmain]) (by simp [hmain])
  | create hw hok => exact invPool_frame ih rfl rfl rfl rfl rfl id
  | createFail hw hok => exact invPool_frame ih rfl rfl rfl rfl rfl id
  | recvResult hw res rest hb => exact invPool_frame ih rfl rfl rfl rfl rfl id
  | loopEnd hw hb hc => exact invPool_frame ih rfl rfl rfl rfl rfl id
  | writeOk res hw hok => exact invPool_frame ih rfl rfl rfl rfl rfl id
  | writeFail res hw hok => exact invPool_frame ih rfl rfl rfl rfl rfl id
  | logErr hw => exact invPool_frame ih rfl rfl rfl rfl rfl id
  | deferClose hw => exact invPool_frame ih rfl rfl rfl rfl rfl id
  | wStart k wk hk hpc =>
    exact invPool_worker ih k wk .recv hk (by simp [hpc]) rfl rfl rfl (by simp [live]) rfl id
      (by simp)
  | wDequeue k wk hk hpc t rest hb =>
    exact invPool_worker ih k wk (.proc t) hk (by simp [hpc]) rfl rfl rfl (by simp [live]) rfl
      (by simp [hb]) (by simp)
  | wLoopEnd k wk hk hpc hb hc =>
    exact invPool_worker ih k wk .finish hk (by simp [hpc]) rfl rfl rfl (by simp [live]) rfl id
      (fun _ => ⟨hc, hb⟩)
  | wProcOk k wk hk t hpc output hp =>
    exact invPool_worker ih k wk (.send t _) hk (by simp [hpc]) rfl rfl rfl (by simp [live]) rfl id
      (by simp)
  | wProcPanic k wk hk t hpc r hp =>
    exact invPool_worker ih k wk .recv hk (by simp [hpc]) rfl rfl rfl (by simp [live]) rfl id
      (by simp)
  | wSendClosed k wk hk t line hpc hc =>
    exact invPool_worker ih k wk .recv hk (by simp [hpc]) rfl rfl rfl (by simp [live]) rfl id
      (by simp)
  | wSend k wk hk t line hpc hc hfull =>
    exact invPool_worker ih k wk .recv hk (by simp [hpc]) rfl rfl rfl (by simp [live]) rfl id
      (by simp)
  | wFinish k wk hk hpc =>
    exact invPool_worker ih k wk .deferDone hk (by simp [hpc]) rfl rfl rfl (by simp [live]) rfl id
      (fun _ => (ih.workers k wk hk).2.1 (by simp [hpc]))
  | wDone k wk hk hpc hwg =>
    exact invPool_worker ih k wk .exited hk (by simp [hpc]) rfl rfl rfl
      (by simp [live]; omega) rfl id
      (fun _ => (ih.workers k wk hk).2.1 (by simp [hpc]))

theorem invPool {cfg : Config} {s : State} (h : Reachable cfg s) : InvPool cfg s := by
  induction h with
  | init => exact ⟨rfl, rfl, AllW.nil _⟩
  | step a hr hs ih => exact invPool_step (invMain hr) ih (step_sound hs).2

/-! ## Channel invariants -/

theorem writeCalls_eq (tr : List Event) : writeCalls tr = tr.filterMap Event.asWrite := by
  induction tr with
  | nil => rfl
  | cons e tr ih => cases e <;> simp [writeCalls, ih]

theorem tasksUpTo_succ (n : Nat) : tasksUpTo (n + 1) = tasksUpTo n ++ [mkTask (n + 1)] := by
  simp [tasksUpTo, List.range'_concat, Nat.add_comm]

theorem invFifo_step {cfg : Config} {s s' : State} (hm : InvMain cfg s) (ih : InvFifo cfg s)
    (hst : Step cfg s s') : InvFifo cfg s' := by
  obtain ⟨i1, i2, i3, i4, i5⟩ := ih
  simp only [enqueued, dequeued, published, received, writeCalls_eq] at i2 i3 i4 i5
  cases hst with
  | goWriter hmain =>
    have hw := hm.writerStarted.2 hmain
    constructor <;>
      simp only [enqueued, dequeued, published, received, writeCalls_eq,
        List.filterMap_append] <;> simp_all
  | enqueue i hmain hi hc hfull =>
    simp only [hmain, MainPc.enqueueOk, MainPc.sent] at i1 i2
    obtain ⟨n, rfl⟩ : ∃ n, i = n + 1 := ⟨i - 1, by omega⟩
    constructor <;>
      simp only [enqueued, dequeued, published, received, writeCalls_eq,
        List.filterMap_append]
    · simp only [MainPc.enqueueOk]; omega
    · simp only [MainPc.sent, Nat.add_sub_cancel] at i2 ⊢
      rw [tasksUpTo_succ, ← i2]; simp
    · simp [i3]
    · simpa using i4
    · simpa using i5
  | enqueueEnd i hmain hi =>
    simp only [hmain, MainPc.enqueueOk, MainPc.sent] at i1 i2
    have : i - 1 = cfg.numJobs := by omega
    constructor <;>
      simp only [enqueued, dequeued, published, received, writeCalls_eq,
        List.filterMap_append] <;> simp_all
  | _ =>
    constructor <;>
      simp only [enqueued, dequeued, published, received, writeCalls_eq,
        List.filterMap_append] <;>
      first | assumption | (simp_all; done)

theorem invFifo {cfg : Config} {s : State} (h : Reachable cfg s) : InvFifo cfg s := by
  induction h with
  | init => constructor <;> simp [init, enqueued, dequeued, published, received, writeCalls, tasksUpTo]
  | step a hr hs ih => exact invFifo_step (invMain hr) ih (step_sound hs).2

/-! ## Work conservation -/

theorem total_nil (f : Task → Nat) : total f [] = 0 := rfl

theorem total_append (f : Task → Nat) (l₁ l₂ : List Task) :
    total f (l₁ ++ l₂) = total f l₁ + total f l₂ := by
  simp [total]

theorem total_singleton (f : Task → Nat) (t : Task) : total f [t] = f t := by
  simp [total]

theorem invWork_step {cfg : Config} {s s' : State} (ih : InvWork s) (hst : Step cfg s s') :
    InvWork s' := by
  intro f
  have ih := ih f
  simp only [dequeued, finished] at ih
  cases hst with
  | goWorker w hmain =>
    simp only [dequeued, finished, List.filterMap_append, wsum_append]
    simpa [wsum, total] using ih
  | wStart k wk hk hpc =>
    have h := wsum_set (fun wk => total f wk.pc.held) s.workers k wk { wk with pc := .recv } hk
    simp only [dequeued, finished, List.filterMap_append]
    simp [total, hpc] at h ih ⊢
    omega
  | wDequeue k wk hk hpc t rest hb =>
    have h := wsum_set (fun wk => total f wk.pc.held) s.workers k wk { wk with pc := .proc t } hk
    simp only [dequeued, finished, List.filterMap_append]
    simp [total, hpc] at h ih ⊢
    omega
  | wLoopEnd k wk hk hpc hb hc =>
    have h := wsum_set (fun wk => total f wk.pc.held) s.workers k wk { wk with pc := .finish } hk
    simp only [dequeued, finished, List.filterMap_append]
    simp [total, hpc] at h ih ⊢
    omega
  | wProcOk k wk hk t hpc output hp =>
    have h := wsum_set (fun wk => total f wk.pc.held) s.workers k wk { wk with pc := .send t (workerLine (wk.id : Int) output) } hk
    simp only [dequeued, finished, List.filterMap_append]
    simp [total, hpc] at h ih ⊢
    omega
  | wProcPanic k wk hk t hpc r hp =>
    have h := wsum_set (fun wk => total f wk.pc.held) s.workers k wk { wk with pc := .recv } hk
    simp only [dequeued, finished, List.filterMap_append]
    simp [total, hpc] at h ih ⊢
    omega
  | wSendClosed k wk hk t line hpc hc =>
    have h := wsum_set (fun wk => total f wk.pc.held) s.workers k wk { wk with pc := .recv } hk
    simp only [dequeued, finished, List.filterMap_append]
    simp [total, hpc] at h ih ⊢
    omega
  | wSend k wk hk t line hpc hc hfull =>
    have h := wsum_set (fun wk => total f wk.pc.held) s.workers k wk { wk with pc := .recv } hk
    simp only [dequeued, finished, List.filterMap_append]
    simp [total, hpc] at h ih ⊢
    omega
  | wFinish k wk hk hpc =>
    have h := wsum_set (fun wk => total f wk.pc.held) s.workers k wk { wk with pc := .deferDone } hk
    simp only [dequeued, finished, List.filterMap_append]
    simp [total, hpc] at h ih ⊢
    omega
  | wDone k wk hk hpc hwg =>
    have h := wsum_set (fun wk => total f wk.pc.held) s.workers k wk { wk with pc := .exited } hk
    simp only [dequeued, finished, List.filterMap_append]
    simp [total, hpc] at h ih ⊢
    omega
  | _ =>
    simp only [dequeued, finished, List.filterMap_append]
    simpa using ih

theorem invWork {cfg : Config} {s : State} (h : Reachable cfg s) : InvWork s := by
  induction h with
  | init => intro f; simp [init, dequeued, finished, total, wsum]
  | step a hr hs ih => exact invWork_step ih (step_sound hs).2

/-! ## Per-worker invariants -/

theorem invIds_step {cfg : Config} {s s' : State} (hp : InvPool cfg s) (ih : InvIds s)
    (hst : Step cfg s s') : InvIds s' := by
  have hlen : ∀ (k : Nat) (wk : Worker), s.workers[k]? = some wk →
      1 ≤ wk.id ∧ wk.id ≤ s.workers.length := by
    intro k wk hk
    have h1 := (hp.workers k wk hk).1
    have h2 : k < s.workers.length := by
      rcases Nat.lt_or_ge k s.workers.length with h | h
      · exact h
      · rw [List.getElem?_eq_none h] at hk; simp at hk
    omega
  have hmono : ∀ e ∈ s.trace, ∀ w : Nat, e.worker = some w → 1 ≤ w ∧ w ≤ s.workers.length + 1 := by
    intro e he w hw; have := ih e he w hw; omega
  unfold InvIds at ih ⊢
  cases hst with
  | goWorker w hmain =>
    intro e he w hw
    simp only [List.mem_append, List.mem_singleton] at he
    rcases he with he | rfl
    · simpa using hmono e he w hw
    · simp at hw
  | wStart k wk hk hpc | wDequeue k wk hk hpc | wProcPanic k wk hk t hpc r hp
  | wSendClosed k wk hk t line hpc hc | wSend k wk hk t line hpc hc hfull
  | wFinish k wk hk hpc | wDone k wk hk hpc hwg =>
    intro e he w hw
    simp only [List.mem_append, List.mem_singleton, List.length_set] at he ⊢
    rcases he with he | rfl
    · exact ih e he w hw
    · simp only [Event.worker, Option.some.injEq] at hw
      subst hw; exact hlen k wk hk
  | wLoopEnd k wk hk hpc hb hc | wProcOk k wk hk t hpc output hp =>
    simpa using ih
  | _ =>
    intro e he w hw
    first
      | exact ih e he w hw
      | (simp only [List.mem_append, List.mem_singleton, List.mem_cons, List.not_mem_nil,
          or_false] at he
         rcases he with he | he
         · exact ih e he w hw
         · first
             | (subst he; simp at hw)
             | (rcases he with rfl | rfl <;> simp at hw))

theorem invIds {cfg : Config} {s : State} (h : Reachable cfg s) : InvIds s := by
  induction h with
  | init => intro e he; simp [init] at he
  | step a hr hs ih => exact invIds_step (invPool hr) ih (step_sound hs).2

theorem byWorker_eq_nil {w : Nat} {tr : List Event} {n : Nat} (hn : n < w)
    (h : ∀ e ∈ tr, ∀ w' : Nat, e.worker = some w' → 1 ≤ w' ∧ w' ≤ n)
    (sel : Event → Option (Nat × Task))
    (hsel : ∀ (e : Event) (p : Nat × Task), sel e = some p → e.worker = some p.1) :
    byWorker w (tr.filterMap sel) = [] := by
  unfold byWorker
  rw [List.map_eq_nil_iff, List.filter_eq_nil_iff]
  intro p hp
  rw [List.mem_filterMap] at hp
  obtain ⟨e, he, hs⟩ := hp
  have := h e he p.1 (hsel e p hs)
  simp; omega

theorem asDequeue_worker (e : Event) (p : Nat × Task) (h : e.asDequeue = some p) :
    e.worker = some p.1 := by
  cases e <;> simp at h ⊢; rw [← h]

theorem asFinished_worker (e : Event) (p : Nat × Task) (h : e.asFinished = some p) :
    e.worker = some p.1 := by
  cases e <;> simp at h ⊢ <;> rw [← h]

theorem doneCount_eq_zero {w : Nat} {tr : List Event} {n : Nat} (hn : n < w)
    (h : ∀ e ∈ tr, ∀ w' : Nat, e.worker = some w' → 1 ≤ w' ∧ w' ≤ n) :
    doneCount w tr = 0 := by
  unfold doneCount
  rw [List.count_eq_zero]
  intro hmem
  have := h _ hmem w rfl
  omega
theorem workerSeq_frame {cfg : Config} {s s' : State} {k : Nat} {wk : Worker}
    (h : WorkerSeq cfg s k wk) (hd : dequeued s'.trace = dequeued s.trace)
    (hf : finished s'.trace = finished s.trace)
    (hc : doneCount (k + 1) s'.trace = doneCount (k + 1) s.trace) : WorkerSeq cfg s' k wk := by
  unfold WorkerSeq at h ⊢
  rw [hd, hf, hc]; exact h

theorem invSeq_step {cfg : Config} {s s' : State} (hm : InvMain cfg s) (hpool : InvPool cfg s)
    (hi : InvIds s) (ih : AllW (WorkerSeq cfg s) s.workers) (hst : Step cfg s s') :
    AllW (WorkerSeq cfg s') s'.workers := by
  cases hst with
  | goWorker w hmain =>
    have h5 := hm.workersLen
    have h6 := hm.spawnOk
    simp only [hmain, MainPc.spawned, MainPc.spawnOk] at h5 h6
    refine AllW.snoc (ih.imp fun j wk h => workerSeq_frame h ?_ ?_ ?_) ?_
    · simp [dequeued, List.filterMap_append]
    · simp [finished, List.filterMap_append]
    · simp [doneCount, List.count_append]
    · refine ⟨?_, ?_, ?_⟩
      · have e1 := byWorker_eq_nil (w := s.workers.length + 1) (Nat.lt_succ_self _) hi
          Event.asDequeue asDequeue_worker
        have e2 := byWorker_eq_nil (w := s.workers.length + 1) (Nat.lt_succ_self _) hi
          Event.asFinished asFinished_worker
        simp [dequeued, finished, List.filterMap_append, e1, e2]
      · have e3 := doneCount_eq_zero (w := s.workers.length + 1) (Nat.lt_succ_self _) hi
        simp [doneCount, List.count_append] at e3 ⊢
        exact e3
      · intro t line h; simp at h
  | wStart k wk hk hpc =>
    have hid := (hpool.workers k wk hk).1
    obtain ⟨a1, a2, a3⟩ := ih k wk hk
    refine AllW.set ih ⟨?_, ?_, ?_⟩ ?_
    · simp [dequeued, finished, byWorker, List.filterMap_append, hpc, hid] at a1 ⊢
      first | exact a1 | simp [a1]
    · simp [doneCount, List.count_append, hpc, hid] at a2 ⊢
      first | exact a2 | simp [a2]
    · intro t' line' h; simp at h
    · intro j w hne h
      obtain ⟨b1, b2, b3⟩ := h
      have hne' := Ne.symm hne
      refine ⟨?_, ?_, b3⟩
      · simp [dequeued, finished, byWorker, List.filterMap_append, hid, hne, hne'] at b1 ⊢
        exact b1
      · simp [doneCount, List.count_append, hid, hne, hne'] at b2 ⊢
        exact b2
  | wDequeue k wk hk hpc t rest hb =>
    have hid := (hpool.workers k wk hk).1
    obtain ⟨a1, a2, a3⟩ := ih k wk hk
    refine AllW.set ih ⟨?_, ?_, ?_⟩ ?_
    · simp [dequeued, finished, byWorker, List.filterMap_append, hpc, hid] at a1 ⊢
      first | exact a1 | simp [a1]
    · simp [doneCount, List.count_append, hpc, hid] at a2 ⊢
      first | exact a2 | simp [a2]
    · intro t' line' h; simp at h
    · intro j w hne h
      obtain ⟨b1, b2, b3⟩ := h
      have hne' := Ne.symm hne
      refine ⟨?_, ?_, b3⟩
      · simp [dequeued, finished, byWorker, List.filterMap_append, hid, hne, hne'] at b1 ⊢
        exact b1
      · simp [doneCount, List.count_append, hid, hne, hne'] at b2 ⊢
        exact b2
  | wLoopEnd k wk hk hpc hb hc =>
    have hid := (hpool.workers k wk hk).1
    obtain ⟨a1, a2, a3⟩ := ih k wk hk
    refine AllW.set ih ⟨?_, ?_, ?_⟩ ?_
    · simp [dequeued, finished, byWorker, List.filterMap_append, hpc, hid] at a1 ⊢
      first | exact a1 | simp [a1]
    · simp [doneCount, List.count_append, hpc, hid] at a2 ⊢
      first | exact a2 | simp [a2]
    · intro t' line' h; simp at h
    · intro j w hne h
      obtain ⟨b1, b2, b3⟩ := h
      have hne' := Ne.symm hne
      refine ⟨?_, ?_, b3⟩
      · simp [dequeued, finished, byWorker, List.filterMap_append, hid, hne, hne'] at b1 ⊢
        exact b1
      · simp [doneCount, List.count_append, hid, hne, hne'] at b2 ⊢
        exact b2
  | wProcOk k wk hk t hpc output hp =>
    have hid := (hpool.workers k wk hk).1
    obtain ⟨a1, a2, a3⟩ := ih k wk hk
    refine AllW.set ih ⟨?_, ?_, ?_⟩ ?_
    · simp [dequeued, finished, byWorker, List.filterMap_append, hpc, hid] at a1 ⊢
      first | exact a1 | simp [a1]
    · simp [doneCount, List.count_append, hpc, hid] at a2 ⊢
      first | exact a2 | simp [a2]
    · intro t' line' h
      simp only [WorkerPc.send.injEq] at h
      obtain ⟨rfl, rfl⟩ := h
      exact ⟨output, hp, rfl⟩
    · intro j w hne h
      obtain ⟨b1, b2, b3⟩ := h
      have hne' := Ne.symm hne
      refine ⟨?_, ?_, b3⟩
      · simp [dequeued, finished, byWorker, List.filterMap_append, hid, hne, hne'] at b1 ⊢
        exact b1
      · simp [doneCount, List.count_append, hid, hne, hne'] at b2 ⊢
        exact b2
  | wProcPanic k wk hk t hpc r hp =>
    have hid := (hpool.workers k wk hk).1
    obtain ⟨a1, a2, a3⟩ := ih k wk hk
    refine AllW.set ih ⟨?_, ?_, ?_⟩ ?_
    · simp [dequeued, finished, byWorker, List.filterMap_append, hpc, hid] at a1 ⊢
      first | exact a1 | simp [a1]
    · simp [doneCount, List.count_append, hpc, hid] at a2 ⊢
      first | exact a2 | simp [a2]
    · intro t' line' h; simp at h
    · intro j w hne h
      obtain ⟨b1, b2, b3⟩ := h
      have hne' := Ne.symm hne
      refine ⟨?_, ?_, b3⟩
      · simp [dequeued, finished, byWorker, List.filterMap_append, hid, hne, hne'] at b1 ⊢
        exact b1
      · simp [doneCount, List.count_append, hid, hne, hne'] at b2 ⊢
        exact b2
  | wSendClosed k wk hk t line hpc hc =>
    have hid := (hpool.workers k wk hk).1
    obtain ⟨a1, a2, a3⟩ := ih k wk hk
    refine AllW.set ih ⟨?_, ?_, ?_⟩ ?_
    · simp [dequeued, finished, byWorker, List.filterMap_append, hpc, hid] at a1 ⊢
      first | exact a1 | simp [a1]
    · simp [doneCount, List.count_append, hpc, hid] at a2 ⊢
      first | exact a2 | simp [a2]
    · intro t' line' h; simp at h
    · intro j w hne h
      obtain ⟨b1, b2, b3⟩ := h
      have hne' := Ne.symm hne
      refine ⟨?_, ?_, b3⟩
      · simp [dequeued, finished, byWorker, List.filterMap_append, hid, hne, hne'] at b1 ⊢
        exact b1
      · simp [doneCount, List.count_append, hid, hne, hne'] at b2 ⊢
        exact b2
  | wSend k wk hk t line hpc hc hfull =>
    have hid := (hpool.workers k wk hk).1
    obtain ⟨a1, a2, a3⟩ := ih k wk hk
    refine AllW.set ih ⟨?_, ?_, ?_⟩ ?_
    · simp [dequeued, finished, byWorker, List.filterMap_append, hpc, hid] at a1 ⊢
      first | exact a1 | simp [a1]
    · simp [doneCount, List.count_append, hpc, hid] at a2 ⊢
      first | exact a2 | simp [a2]
    · intro t' line' h; simp at h
    · intro j w hne h
      obtain ⟨b1, b2, b3⟩ := h
      have hne' := Ne.symm hne
      refine ⟨?_, ?_, b3⟩
      · simp [dequeued, finished, byWorker, List.filterMap_append, hid, hne, hne'] at b1 ⊢
        exact b1
      · simp [doneCount, List.count_append, hid, hne, hne'] at b2 ⊢
        exact b2
  | wFinish k wk hk hpc =>
    have hid := (hpool.workers k wk hk).1
    obtain ⟨a1, a2, a3⟩ := ih k wk hk
    refine AllW.set ih ⟨?_, ?_, ?_⟩ ?_
    · simp [dequeued, finished, byWorker, List.filterMap_append, hpc, hid] at a1 ⊢
      first | exact a1 | simp [a1]
    · simp [doneCount, List.count_append, hpc, hid] at a2 ⊢
      first | exact a2 | simp [a2]
    · intro t' line' h; simp at h
    · intro j w hne h
      obtain ⟨b1, b2, b3⟩ := h
      have hne' := Ne.symm hne
      refine ⟨?_, ?_, b3⟩
      · simp [dequeued, finished, byWorker, List.filterMap_append, hid, hne, hne'] at b1 ⊢
        exact b1
      · simp [doneCount, List.count_append, hid, hne, hne'] at b2 ⊢
        exact b2
  | wDone k wk hk hpc hwg =>
    have hid := (hpool.workers k wk hk).1
    obtain ⟨a1, a2, a3⟩ := ih k wk hk
    refine AllW.set ih ⟨?_, ?_, ?_⟩ ?_
    · simp [dequeued, finished, byWorker, List.filterMap_append, hpc, hid] at a1 ⊢
      first | exact a1 | simp [a1]
    · simp [doneCount, List.count_append, hpc, hid] at a2 ⊢
      first | exact a2 | simp [a2]
    · intro t' line' h; simp at h
    · intro j w hne h
      obtain ⟨b1, b2, b3⟩ := h
      have hne' := Ne.symm hne
      refine ⟨?_, ?_, b3⟩
      · simp [dequeued, finished, byWorker, List.filterMap_append, hid, hne, hne'] at b1 ⊢
        exact b1
      · simp [doneCount, List.count_append, hid, hne, hne'] at b2 ⊢
        exact b2
  | _ =>
    refine ih.imp fun j wk h => workerSeq_frame h ?_ ?_ ?_
    · simp [dequeued, List.filterMap_append]
    · simp [finished, List.filterMap_append]
    · simp [doneCount, List.count_append]

theorem invSeq {cfg : Config} {s : State} (h : Reachable cfg s) :
    AllW (WorkerSeq cfg s) s.workers := by
  induction h with
  | init => exact AllW.nil _
  | step a hr hs ih => exact invSeq_step (invMain hr) (invPool hr) (invIds hr) ih (step_sound hs).2

/-! ## Counting invariants -/

set_option maxHeartbeats 1000000 in
theorem invCount_step {cfg : Config} {s s' : State} (hm : InvMain cfg s) (hf : InvFifo cfg s)
    (ih : InvCount cfg s) (hh : halted s = false) (hst : Step cfg s s') : InvCount cfg s' := by
  have hfat : s.fatal = false := by
    unfold halted at hh
    cases hfa : s.fatal
    · rfl
    · rw [hfa] at hh; simp at hh
  obtain ⟨i2, i3, i4, i5, i6, i7, i8, i9, i10⟩ := ih
  have f1 := hf.enqueueOk
  have m1 := hm.writerStarted
  have m2 := hm.writerSignalled
  simp only [failedWrites, writeCalls_eq] at i10
  cases hst <;>
    (constructor <;>
      simp only [failedWrites, writeCalls_eq, List.filterMap_append,
        List.countP_append, List.filter_append, List.length_append] <;>
      first | assumption | (simp [*]; done) | (simp_all; done) | (simp_all; omega) | skip)

theorem invCount {cfg : Config} {s : State} (h : Reachable cfg s) : InvCount cfg s := by
  induction h with
  | init => constructor <;> simp [init, failedWrites, writeCalls]
  | step a hr hs ih => exact invCount_step (invMain hr) (invFifo hr) ih (step_sound hs).1 (step_sound hs).2

theorem invJobsActs_step {cfg : Config} {s s' : State} (hf : InvFifo cfg s)
    (ih : InvJobsActs cfg s) (hst : Step cfg s s') : InvJobsActs cfg s' := by
  have f1 := hf.enqueueOk
  unfold InvJobsActs jobsActs at ih ⊢
  cases hst with
  | enqueue i hmain hi hc hfull =>
    simp only [hmain, MainPc.enqueueOk, MainPc.sent, MainPc.jobsClosed] at f1 ih
    obtain ⟨n, rfl⟩ : ∃ n, i = n + 1 := ⟨i - 1, by omega⟩
    simp only [Nat.add_sub_cancel] at ih
    simp [List.filterMap_append, ih, tasksUpTo_succ]
  | enqueueEnd i hmain hi =>
    simp only [hmain, MainPc.enqueueOk, MainPc.sent, MainPc.jobsClosed] at f1 ih
    have : i - 1 = cfg.numJobs := by omega
    simpa [this] using ih
  | closeJobs hmain hc =>
    simp only [hmain, MainPc.sent, MainPc.jobsClosed] at ih
    simp [List.filterMap_append, ih]
  | _ => simp_all [List.filterMap_append]

theorem invJobsActs {cfg : Config} {s : State} (h : Reachable cfg s) : InvJobsActs cfg s := by
  induction h with
  | init => simp [InvJobsActs, init, jobsActs, tasksUpTo]
  | step a hr hs ih => exact invJobsActs_step (invFifo hr) ih (step_sound hs).2

/-! ## What the events say -/

theorem not_send_closed {cfg : Config} {s : State} (hm : InvMain cfg s) (hp : InvPool cfg s)
    {k : Nat} {wk : Worker} (hk : s.workers[k]? = some wk) (hpc : wk.pc ≠ .exited) :
    s.results.closed = false := by
  cases hc : s.results.closed
  · rfl
  · exfalso
    have h1 := hm.resultsClosed
    rw [hc] at h1
    have h2 : s.main.joined = true := by
      cases hmain : s.main <;> simp [hmain] at h1 ⊢
    exact hpc ((hp.workers k wk hk).2.2 h2)

theorem invEv_step {cfg : Config} {s s' : State} (hm : InvMain cfg s) (hp : InvPool cfg s)
    (hq : AllW (WorkerSeq cfg s) s.workers) (ih : InvEv cfg s) (hst : Step cfg s s') :
    InvEv cfg s' := by
  obtain ⟨i1, i2⟩ := ih
  simp only [published, recovered] at i1 i2
  cases hst with
  | wSend k wk hk t line hpc hc hfull =>
    obtain ⟨out, h1, h2⟩ := (hq k wk hk).2.2 t line hpc
    constructor
    · intro e he
      simp only [published, List.filterMap_append, List.mem_append] at he
      rcases he with he | he
      · exact i1 e he
      · simp at he; subst he; exact ⟨out, h1, h2⟩
    · simp only [recovered, List.filterMap_append, List.filterMap_cons, List.filterMap_nil,
        Event.asRecovered, List.append_nil]
      exact i2
  | wProcPanic k wk hk t hpc r hpr =>
    constructor
    · simp only [published, List.filterMap_append, List.filterMap_cons, List.filterMap_nil,
        Event.asPublish, List.append_nil]
      exact i1
    · intro e he
      simp only [recovered, List.filterMap_append, List.mem_append] at he
      rcases he with he | he
      · exact i2 e he
      · simp at he; subst he; exact ⟨r, hpr⟩
  | wSendClosed k wk hk t line hpc hc =>
    have := not_send_closed hm hp hk (by rw [hpc]; simp)
    rw [hc] at this; simp at this
  | _ =>
    constructor
    · simp only [published, List.filterMap_append, List.filterMap_cons, List.filterMap_nil,
        Event.asPublish, List.append_nil]
      exact i1
    · simp only [recovered, List.filterMap_append, List.filterMap_cons, List.filterMap_nil,
        Event.asRecovered, List.append_nil]
      exact i2

theorem invEv {cfg : Config} {s : State} (h : Reachable cfg s) : InvEv cfg s := by
  induction h with
  | init => constructor <;> simp [init, published, recovered]
  | step a hr hs ih =>
    exact invEv_step (invMain hr) (invPool hr) (invSeq hr) ih (step_sound hs).2

/-! ## Termination -/

theorem not_halted {s : State} (hh : halted s = false) :
    s.fatal = false ∧ s.panicked = false ∧ s.main ≠ .returned := by
  unfold halted at hh
  simp only [Bool.or_eq_false_iff, decide_eq_false_iff_not] at hh
  exact ⟨hh.1.1, hh.1.2, hh.2⟩

theorem measure_step {cfg : Config} {s s' : State} (hm : InvMain cfg s)
    (hh : halted s = false) (hst : Step cfg s s') : measure cfg s' < measure cfg s := by
  obtain ⟨h1, h2, _⟩ := not_halted hh
  have hsp := hm.spawnOk
  unfold measure
  cases hst with
  | wStart k wk hk hpc | wLoopEnd k wk hk hpc | wFinish k wk hk hpc | wDone k wk hk hpc
  | wDequeue k wk hk hpc t rest hb | wProcOk k wk hk t hpc | wProcPanic k wk hk t hpc
  | wSendClosed k wk hk t line hpc | wSend k wk hk t line hpc =>
    have h := wsum_set workerRank s.workers k wk
    simp only [h1, h2] at *
    first
      | (have h := h { wk with pc := .recv }  hk
         simp [hpc, *] at h ⊢; omega)
      | (have h := h { wk with pc := .finish }  hk
         simp [hpc, *] at h ⊢; omega)
      | (have h := h { wk with pc := .deferDone }  hk
         simp [hpc, *] at h ⊢; omega)
      | (have h := h { wk with pc := .exited }  hk
         simp [hpc, *] at h ⊢; omega)
      | (have h := h { wk with pc := .proc ‹Task› }  hk
         simp [hpc, *] at h ⊢; omega)
      | (have h := h { wk with pc := .send ‹Task› (workerLine (wk.id : Int) ‹String›) }  hk
         simp [hpc, *] at h ⊢; omega)
  | goWorker w hmain =>
    simp only [hmain, MainPc.spawnOk] at hsp
    simp [h1, h2, hmain, wsum_append, wsum]; omega
  | goWriter hmain =>
    have hw := hm.writerStarted.2 hmain
    simp [h1, h2, hmain, hw]; omega
  | _ => simp [h1, h2, *] <;> omega

/-! ## Progress -/

theorem published_length_le (tr : List Event) : (published tr).length ≤ (finished tr).length := by
  induction tr with
  | nil => simp [published, finished]
  | cons e tr ih =>
    cases e <;> simp [published, finished] at ih ⊢ <;> omega

theorem total_one (l : List Task) : total (fun _ => 1) l = l.length := by
  induction l with
  | nil => rfl
  | cons a l ih => simp only [total, List.map_cons, List.sum_cons, List.length_cons] at ih ⊢; omega

theorem tasksUpTo_length (n : Nat) : (tasksUpTo n).length = n := by
  simp [tasksUpTo]

/-- The buffer of `jobs` has room whenever `main` is about to send. -/
theorem jobs_room {cfg : Config} {s : State} (hm : InvMain cfg s) (hf : InvFifo cfg s)
    {i : Nat} (hmain : s.main = .enqueue i) (hi : i ≤ cfg.numJobs) :
    s.jobs.buf.length < s.jobs.cap := by
  have h1 := congrArg List.length hf.jobsFifo
  have h2 := congrArg List.length hf.sentTasks
  have h3 := hf.enqueueOk
  rw [hmain] at h2 h3
  simp only [MainPc.sent, tasksUpTo_length, MainPc.enqueueOk] at h2 h3
  rw [List.length_append, h2] at h1
  rw [hm.jobsCap]; omega

/-- The buffer of `results` has room whenever a worker is about to send. -/
theorem results_room {cfg : Config} {s : State} (hm : InvMain cfg s) (hf : InvFifo cfg s)
    (hw : InvWork s) {k : Nat} {wk : Worker} (hk : s.workers[k]? = some wk)
    {t : Task} {line : String} (hpc : wk.pc = .send t line) :
    s.results.buf.length < s.results.cap := by
  have h1 := congrArg List.length hf.jobsFifo
  have h2 := congrArg List.length hf.sentTasks
  have h3 := congrArg List.length hf.resultsFifo
  have h4 := published_length_le s.trace
  have h5 := hw (fun _ => 1)
  have h6 := le_wsum (fun wk => total (fun _ => 1) wk.pc.held) s.workers k wk hk
  have h6' : total (fun _ => 1) wk.pc.held ≤
      wsum (fun wk => total (fun _ => 1) wk.pc.held) s.workers := h6
  rw [hpc] at h6'
  have h6'' : 1 ≤ wsum (fun wk => total (fun _ => 1) wk.pc.held) s.workers := h6'
  have h7 : s.main.sent cfg.numJobs ≤ cfg.numJobs := by
    have := hf.enqueueOk
    cases hmain : s.main <;> simp [hmain] at this ⊢
    omega
  simp only [tasksUpTo_length, List.length_append, List.length_map] at h1 h2 h3
  rw [total_one, total_one, List.length_map, List.length_map] at h5
  rw [hm.resultsCap]; omega
theorem step_main_eq {cfg : Config} {s : State} (hh : halted s = false) :
    step cfg .main s = stepMain cfg s := by
  simp [step, hh]

theorem step_writer_eq {cfg : Config} {s : State} (hh : halted s = false) :
    step cfg .writer s = stepWriter cfg s := by
  simp [step, hh]

theorem step_worker_eq {cfg : Config} {s : State} (k : Nat) (hh : halted s = false) :
    step cfg (.worker k) s = stepWorker cfg k s := by
  simp [step, hh]

/-- A worker that has not ended can move once `jobs` is closed. -/
theorem worker_enabled {cfg : Config} {s : State} (hm : InvMain cfg s) (hf : InvFifo cfg s)
    (hw : InvWork s) (hh : halted s = false) (hc : s.jobs.closed = true)
    {k : Nat} {wk : Worker} (hk : s.workers[k]? = some wk) (hpc : wk.pc ≠ .exited) :
    (step cfg (.worker k) s).isSome = true := by
  rw [step_worker_eq k hh]
  unfold stepWorker
  simp only [hk]
  cases hpc' : wk.pc with
  | start => simp
  | recv =>
    simp only
    cases hb : s.jobs.buf with
    | nil => simp [hc]
    | cons t rest => simp
  | proc t =>
    simp only
    cases cfg.process t <;> simp
  | send t line =>
    have := results_room hm hf hw hk hpc'
    simp only
    split
    · simp
    · simp [this]
  | finish => simp
  | deferDone =>
    simp only
    split <;> simp
  | exited => exact absurd hpc' hpc

/-- The writer can move once `results` is closed, until it has signalled. -/
theorem writer_enabled {cfg : Config} {s : State} (hm : InvMain cfg s)
    (hh : halted s = false) (hmain : s.main = .recvDone) :
    (step cfg .writer s).isSome = true := by
  rw [step_writer_eq hh]
  have h1 := hm.writerStarted
  have h2 := hm.writerSignalled
  have h3 := hm.resultsClosed
  rw [hmain] at h1 h2 h3
  unfold stepWriter stepHandshake
  cases hw : s.writer with
  | notStarted => simp [hw] at h1
  | create =>
    simp only
    split <;> simp
  | loop =>
    simp only
    cases hb : s.results.buf with
    | nil => simp [h3]
    | cons t rest => simp
  | write res =>
    simp only
    split <;> simp
  | logErr => simp
  | sendDone => simp [hmain, hw]
  | deferClose => simp [hw] at h2
  | exited => simp [hw] at h2

/-- No deadlock: while the process has not ended, some goroutine can move. -/
theorem progress {cfg : Config} {s : State} (hr : Reachable cfg s) (hh : halted s = false) :
    ∃ a, (step cfg a s).isSome = true := by
  have hm := invMain hr
  have hf := invFifo hr
  have hp := invPool hr
  have hw := invWork hr
  cases hmain : s.main with
  | goWriter => exact ⟨.main, by rw [step_main_eq hh]; simp [stepMain, hmain]⟩
  | wgAdd w =>
    refine ⟨.main, ?_⟩
    rw [step_main_eq hh]; simp only [stepMain, hmain]; split <;> simp
  | goWorker w => exact ⟨.main, by rw [step_main_eq hh]; simp [stepMain, hmain]⟩
  | logSending => exact ⟨.main, by rw [step_main_eq hh]; simp [stepMain, hmain]⟩
  | enqueue i =>
    refine ⟨.main, ?_⟩
    rw [step_main_eq hh]; simp only [stepMain, hmain]
    split
    · have := jobs_room hm hf hmain ‹_›
      split
      · simp
      · simp [this]
    · simp
  | closeJobs =>
    refine ⟨.main, ?_⟩
    rw [step_main_eq hh]; simp only [stepMain, hmain]; split <;> simp
  | wgWait =>
    by_cases hwg : s.wg = 0
    · exact ⟨.main, by rw [step_main_eq hh]; simp [stepMain, hmain, hwg]⟩
    · have h1 := hp.wgCount
      rw [hmain] at h1
      simp only [MainPc.adding, Nat.add_zero] at h1
      obtain ⟨k, wk, hk, hl⟩ := exists_of_wsum_pos live s.workers (by omega)
      have hc : s.jobs.closed = true := by rw [hm.jobsClosed, hmain]; rfl
      refine ⟨.worker k, worker_enabled hm hf hw hh hc hk ?_⟩
      intro he
      simp [live, he] at hl
  | closeResults =>
    refine ⟨.main, ?_⟩
    rw [step_main_eq hh]; simp only [stepMain, hmain]; split <;> simp
  | recvDone => exact ⟨.writer, writer_enabled hm hh hmain⟩
  | logCompleted => exact ⟨.main, by rw [step_main_eq hh]; simp [stepMain, hmain]⟩
  | ret => exact ⟨.main, by rw [step_main_eq hh]; simp [stepMain, hmain]⟩
  | returned => exact absurd hmain (not_halted hh).2.2
/-! ## Runs -/

theorem run_reachable {cfg : Config} :
    ∀ (sched : List Actor) {s s' : State}, Reachable cfg s → run cfg sched s = some s' →
      Reachable cfg s'
  | [], s, s', hr, h => by
    simp only [run, Option.some.injEq] at h; subst h; exact hr
  | a :: as, s, s', hr, h => by
    simp only [run] at h
    cases hs : step cfg a s with
    | none => rw [hs] at h; simp at h
    | some s₁ =>
      rw [hs] at h
      exact run_reachable as (Reachable.step a hr hs) h

theorem run_append {cfg : Config} :
    ∀ (as bs : List Actor) (s : State),
      run cfg (as ++ bs) s = (run cfg as s).bind (run cfg bs)
  | [], bs, s => by simp [run]
  | a :: as, bs, s => by
    simp only [List.cons_append, run]
    cases hs : step cfg a s with
    | none => simp
    | some s₁ => simp [run_append as bs s₁]

/-- Every run is finite: its length is bounded by the measure it uses up. -/
theorem run_length_le {cfg : Config} :
    ∀ (sched : List Actor) {s s' : State}, Reachable cfg s → run cfg sched s = some s' →
      sched.length + measure cfg s' ≤ measure cfg s
  | [], s, s', _, h => by
    simp only [run, Option.some.injEq] at h; subst h; simp
  | a :: as, s, s', hr, h => by
    simp only [run] at h
    cases hs : step cfg a s with
    | none => rw [hs] at h; simp at h
    | some s₁ =>
      rw [hs] at h
      have h1 := run_length_le as (Reachable.step a hr hs) h
      have h2 := measure_step (invMain hr) (step_sound hs).1 (step_sound hs).2
      simp only [List.length_cons]; omega

/-- Every reachable state can be run on until the process has ended. -/
theorem reaches_halt {cfg : Config} :
    ∀ (n : Nat) {s : State}, Reachable cfg s → measure cfg s ≤ n →
      ∃ sched s', run cfg sched s = some s' ∧ halted s' = true
  | 0, s, hr, hn => by
    cases hh : halted s with
    | true => exact ⟨[], s, rfl, hh⟩
    | false =>
      exfalso
      obtain ⟨h1, h2, _⟩ := not_halted hh
      simp [measure, h1, h2] at hn
  | n + 1, s, hr, hn => by
    cases hh : halted s with
    | true => exact ⟨[], s, rfl, hh⟩
    | false =>
      obtain ⟨a, ha⟩ := progress hr hh
      obtain ⟨s₁, hs⟩ := Option.isSome_iff_exists.1 ha
      have h2 := measure_step (invMain hr) (step_sound hs).1 (step_sound hs).2
      obtain ⟨sched, s', h3, h4⟩ := reaches_halt n (Reachable.step a hr hs) (by omega)
      exact ⟨a :: sched, s', by simp [run, hs, h3], h4⟩

/-- When `os.Create` fails the writer never gets past it. -/
theorem invCreate {cfg : Config} {s : State} (hr : Reachable cfg s)
    (hc : cfg.createOk = false) : s.writer.created = false := by
  induction hr with
  | init => rfl
  | step a hr hs ih =>
    have hm := invMain hr
    have h2 := hm.writerSignalled
    cases (step_sound hs).2 with
    | create hw hok => rw [hc] at hok; simp at hok
    | goWriter hmain => rfl
    | handshake hmain hw => rw [hw] at ih; simp at ih
    | recvResult hw | loopEnd hw | writeOk res hw | writeFail res hw | logErr hw
    | deferClose hw => rw [hw] at ih; simp at ih
    | _ => exact ih

/-- How a run ends: never by a panic; by `log.Fatalf` exactly when the file
cannot be created; otherwise by `main` returning. -/
theorem halted_cases {cfg : Config} {s : State} (hr : Reachable cfg s)
    (hh : halted s = true) :
    s.panicked = false ∧
    (cfg.createOk = false → s.fatal = true ∧ s.main ≠ .returned) ∧
    (cfg.createOk = true → s.fatal = false ∧ s.main = .returned) := by
  have hp := (invPool hr).notPanicked
  have hm := invMain hr
  unfold halted at hh
  rw [hp] at hh
  simp only [Bool.or_false, Bool.or_eq_true, decide_eq_true_eq] at hh
  refine ⟨hp, ?_, ?_⟩
  · intro hc
    have h1 := invCreate hr hc
    have h2 := hm.writerSignalled
    have h3 : s.main ≠ .returned := by
      intro h
      rw [h] at h2
      cases hw : s.writer <;> simp [hw] at h1 h2
    exact ⟨by tauto, h3⟩
  · intro hc
    cases hf : s.fatal with
    | false => rw [hf] at hh; simp at hh; exact ⟨rfl, hh⟩
    | true => have := (hm.fatalCreate hf).1; rw [hc] at this; simp at this

/-! ## A concrete run -/

theorem demo_run : run demoConfig demoSchedule (init demoConfig) = some demoFinal := by
  decide

theorem demo_reachable : Reachable demoConfig demoFinal :=
  run_reachable demoSchedule Reachable.init demo_run

theorem demo_returned : demoFinal.main = .returned := by decide

/-! ## Facts used by several claims -/

theorem wsum_eq_zero (f : Worker → Nat) :
    ∀ (l : List Worker), (∀ (k : Nat) (wk : Worker), l[k]? = some wk → f wk = 0) →
      wsum f l = 0
  | [], _ => rfl
  | x :: l, h => by
    have h0 := h 0 x (by simp)
    have h1 := wsum_eq_zero f l (fun k wk hk => h (k + 1) wk (by simpa using hk))
    simp only [wsum, List.map_cons, List.sum_cons] at h1 ⊢
    omega

theorem total_count (a : Task) (l : List Task) :
    total (fun t => if t = a then 1 else 0) l = l.count a := by
  induction l with
  | nil => rfl
  | cons x l ih =>
    simp only [total, List.map_cons, List.sum_cons, List.count_cons] at ih ⊢
    by_cases h : x = a
    · simp [h, ih]; omega
    · simp [h, ih]

theorem finished_split (f : Task → Nat) (tr : List Event) :
    total f ((finished tr).map Prod.snd) =
      total f ((published tr).map (fun e => e.2.1)) + total f ((recovered tr).map Prod.snd) := by
  induction tr with
  | nil => rfl
  | cons e tr ih =>
    cases e <;>
      simp only [finished, published, recovered, total, List.filterMap_cons, Event.asFinished,
        Event.asPublish, Event.asRecovered, List.map_cons, List.sum_cons] at ih ⊢ <;>
      omega

theorem mkTask_injective : Function.Injective mkTask := by
  intro a b h
  have := congrArg Task.ID h
  simpa [mkTask] using this

theorem tasksUpTo_nodup (n : Nat) : (tasksUpTo n).Nodup :=
  (List.nodup_range' 1 n).map mkTask_injective

theorem mem_tasksUpTo {n : Nat} {t : Task} :
    t ∈ tasksUpTo n ↔ ∃ i, 1 ≤ i ∧ i ≤ n ∧ t = mkTask i := by
  simp only [tasksUpTo, List.mem_map, List.mem_range'_1]
  constructor
  · rintro ⟨i, ⟨h1, h2⟩, rfl⟩; exact ⟨i, h1, by omega, rfl⟩
  · rintro ⟨i, h1, h2, rfl⟩; exact ⟨i, ⟨h1, by omega⟩, rfl⟩

theorem count_tasksUpTo {n i : Nat} (h1 : 1 ≤ i) (h2 : i ≤ n) :
    (tasksUpTo n).count (mkTask i) = 1 :=
  List.count_eq_one_of_mem (tasksUpTo_nodup n) (mem_tasksUpTo.2 ⟨i, h1, h2, rfl⟩)

/-- Once `wg.Wait()` has returned (with at least one worker) every worker has
ended, `jobs` is drained, and the tasks received are exactly the tasks sent. -/
theorem joined_facts {cfg : Config} {s : State} (hr : Reachable cfg s)
    (hN : 1 ≤ cfg.numWorkers) (hj : s.main.joined = true) :
    (∀ (k : Nat) (wk : Worker), s.workers[k]? = some wk → wk.pc = .exited) ∧
    s.jobs.buf = [] ∧
    (dequeued s.trace).map Prod.snd = tasksUpTo cfg.numJobs := by
  have hm := invMain hr
  have hp := invPool hr
  have hf := invFifo hr
  have hex : ∀ (k : Nat) (wk : Worker), s.workers[k]? = some wk → wk.pc = .exited :=
    fun k wk hk => (hp.workers k wk hk).2.2 hj
  have hlen : s.workers.length = cfg.numWorkers := by
    have := hm.workersLen
    cases hmain : s.main <;> simp [hmain] at hj this ⊢ <;> exact this
  have hsent : s.main.sent cfg.numJobs = cfg.numJobs := by
    cases hmain : s.main <;> simp [hmain] at hj ⊢
  have h0 : 0 < s.workers.length := by omega
  have hk0 : s.workers[0]? = some s.workers[0] := List.getElem?_eq_getElem h0
  have hbuf : s.jobs.buf = [] :=
    ((hp.workers 0 _ hk0).2.1 (by rw [hex 0 _ hk0]; rfl)).2
  refine ⟨hex, hbuf, ?_⟩
  have h1 := hf.jobsFifo
  rw [hf.sentTasks, hsent, hbuf, List.append_nil] at h1
  exact h1.symm

/-- Once every worker has ended, the tasks whose handling ended weigh as much
as the tasks received. -/
theorem drained_work {s : State} (hw : InvWork s)
    (hex : ∀ (k : Nat) (wk : Worker), s.workers[k]? = some wk → wk.pc = .exited)
    (f : Task → Nat) :
    total f ((dequeued s.trace).map Prod.snd) =
      total f ((published s.trace).map (fun e => e.2.1)) +
        total f ((recovered s.trace).map Prod.snd) := by
  have h1 := hw f
  have h2 : wsum (fun wk => total f wk.pc.held) s.workers = 0 :=
    wsum_eq_zero _ _ (fun k wk hk => by rw [hex k wk hk]; rfl)
  rw [h2, finished_split] at h1
  omega

/-! ## C1 -/

/-- C1. With at least one worker, in every interleaving, once `main` has
returned each task `Task{i, "data_item_i"}`, `1 <= i <= numJobs`, was received
from `jobs` exactly once, and either exactly one result line for it was sent on
`results` and no failure was logged for it, or no result line was sent and
exactly one failure diagnostic was logged by the recover boundary. -/
theorem C1_each_task_accounted_once (cfg : Config) (hN : 1 ≤ cfg.numWorkers) (s : State)
    (hr : Reachable cfg s) (hdone : s.main = .returned) (i : Nat) (h1 : 1 ≤ i)
    (hM : i ≤ cfg.numJobs) :
    dequeuesOf (mkTask i) s.trace = 1 ∧
    ((resultsFor (mkTask i) s.trace = 1 ∧ failuresFor (mkTask i) s.trace = 0) ∨
     (resultsFor (mkTask i) s.trace = 0 ∧ failuresFor (mkTask i) s.trace = 1)) := by
  obtain ⟨hex, _, hdeq⟩ := joined_facts hr hN (by rw [hdone]; rfl)
  have h2 := drained_work (invWork hr) hex (fun t => if t = mkTask i then 1 else 0)
  rw [total_count, total_count, total_count, hdeq, count_tasksUpTo h1 hM] at h2
  unfold dequeuesOf resultsFor failuresFor
  rw [hdeq, count_tasksUpTo h1 hM]
  refine ⟨rfl, ?_⟩
  omega

/-- C1 at the demo run: task 2 of `demoConfig` is accounted for once. -/
theorem C1_each_task_accounted_once_witness :
    dequeuesOf (mkTask 2) demoFinal.trace = 1 ∧
    ((resultsFor (mkTask 2) demoFinal.trace = 1 ∧ failuresFor (mkTask 2) demoFinal.trace = 0) ∨
     (resultsFor (mkTask 2) demoFinal.trace = 0 ∧ failuresFor (mkTask 2) demoFinal.trace = 1)) :=
  C1_each_task_accounted_once demoConfig (by decide) demoFinal demo_reachable demo_returned 2
    (by decide) (by decide)

/-! ## C2 -/

/-- The writer leaves its loop only on a closed and drained `results`. -/
theorem invDrain {cfg : Config} {s : State} (hr : Reachable cfg s)
    (hw : s.writer.pastLoop = true) : s.results.closed = true ∧ s.results.buf = [] := by
  induction hr with
  | init => simp [init] at hw
  | step a hr hs ih =>
    cases (step_sound hs).2 with
    | loopEnd hwr hb hc => exact ⟨hc, hb⟩
    | goWriter hmain => simp at hw
    | create hwr hok => simp at hw
    | recvResult hwr res rest hb => simp at hw
    | writeOk res hwr hok => simp at hw
    | writeFail res hwr hok => simp at hw
    | logErr hwr => simp at hw
    | handshake hmain hwr => exact ih (by rw [hwr]; rfl)
    | deferClose hwr => exact ih (by rw [hwr]; rfl)
    | closeResults hmain hc => exact ⟨rfl, (ih hw).2⟩
    | wSend k wk hk t line hpc hc hfull =>
      have := (ih hw).1
      rw [hc] at this; simp at this
    | _ => exact ih hw

/-- What a step adds to the trace. -/
theorem step_trace {cfg : Config} {s s' : State} (hst : Step cfg s s') :
    s'.trace = s.trace ∨
    (∃ e, s'.trace = s.trace ++ [e] ∧ (e = .closeResults → s.main = .closeResults) ∧
      (∀ p, e.asPublish = some p → s.results.closed = false)) ∨
    (s'.trace = s.trace ++ [.sendDone true] ++ [.recvDone true]) := by
  cases hst with
  | spawnEnd | enqueuePanic | enqueueEnd | closeJobsPanic | closeResultsPanic | wLoopEnd
  | wProcOk | wDonePanic | loopEnd => exact Or.inl rfl
  | handshake => exact Or.inr (Or.inr (by simp))
  | closeResults hmain hc => exact Or.inr (Or.inl ⟨_, rfl, fun _ => hmain, by simp⟩)
  | wSend k wk hk t line hpc hc hfull => exact Or.inr (Or.inl ⟨_, rfl, by simp, fun _ _ => hc⟩)
  | _ => exact Or.inr (Or.inl ⟨_, rfl, by simp, by simp⟩)

theorem split_snoc {tr pre post : List Event} {e x : Event}
    (h : tr ++ [e] = pre ++ x :: post) :
    (e = x ∧ post = [] ∧ pre = tr) ∨ (∃ post₀, tr = pre ++ x :: post₀ ∧ post = post₀ ++ [e]) := by
  rcases List.eq_nil_or_concat post with hp | ⟨post₀, e', hp⟩
  · subst hp
    have h' : tr ++ [e] = pre ++ [x] := h
    obtain ⟨h1, h2⟩ := List.append_inj' h' rfl
    simp only [List.cons.injEq, and_true] at h2
    exact Or.inl ⟨h2, rfl, h1.symm⟩
  · subst hp
    have h' : tr ++ [e] = (pre ++ x :: post₀) ++ [e'] := by simpa using h
    obtain ⟨h1, h2⟩ := List.append_inj' h' rfl
    simp only [List.cons.injEq, and_true] at h2
    subst h2
    exact Or.inr ⟨post₀, h1, by simp⟩

theorem mem_of_countP_pos {p : Event → Bool} {tr : List Event} (h : 0 < tr.countP p) :
    ∃ e ∈ tr, p e = true := by
  simpa [List.countP_pos_iff] using h

theorem closeResults_mem {cfg : Config} {s : State} (hr : Reachable cfg s)
    (h : Event.closeResults ∈ s.trace) : s.results.closed = true := by
  have h1 := (invCount hr).closeResults
  have h2 : 0 < s.trace.countP Event.isCloseResults :=
    List.countP_pos_iff.2 ⟨_, h, rfl⟩
  rw [(invMain hr).resultsClosed]
  cases hc : s.main.resultsClosed
  · rw [hc] at h1
    have h3 : ind false = 0 := rfl
    omega
  · rfl

theorem closeAfterJoin {cfg : Config} {s : State} (hr : Reachable cfg s) :
    CloseAfterJoin cfg s.trace := by
  induction hr with
  | init => intro pre post h; simp [init] at h
  | step a hr hs ih =>
    rename_i s s'
    have hst := (step_sound hs).2
    have ext : ∀ e : Event, (e = .closeResults → s.main = .closeResults) →
        (∀ p, e.asPublish = some p → s.results.closed = false) →
        CloseAfterJoin cfg (s.trace ++ [e]) := by
      intro e he1 he2 pre post hsplit
      rcases split_snoc hsplit with ⟨hx, hpost, hpre⟩ | ⟨post₀, h1, h2⟩
      · subst hpost hpre
        have hmain := he1 hx
        have hj : s.main.joined = true := by rw [hmain]; rfl
        refine ⟨?_, ?_, rfl⟩
        · have h1 := (invCount hr).wgWaitReturn
          rw [hj] at h1
          obtain ⟨e', hm, hp⟩ := @mem_of_countP_pos Event.isWgWaitReturn
            s.trace (by rw [h1]; decide)
          cases e' <;> simp at hp
          exact hm
        · intro w hw1 hw2
          have hlen := (invMain hr).workersLen
          rw [hmain] at hlen
          simp only [MainPc.spawned] at hlen
          have hlt : w - 1 < s.workers.length := by omega
          have hk := List.getElem?_eq_getElem hlt
          have h3 := (invSeq hr (w - 1) _ hk).2.1
          have h4 := ((invPool hr).workers (w - 1) _ hk).2.2 hj
          rw [h4] at h3
          have hw : w - 1 + 1 = w := by omega
          rw [hw] at h3
          simpa using h3
      · obtain ⟨g1, g2, g3⟩ := ih pre post₀ h1
        refine ⟨g1, g2, ?_⟩
        subst h2
        have hc := closeResults_mem hr (by rw [h1]; simp)
        simp only [published, List.filterMap_append] at g3 ⊢
        rw [g3]
        cases hp : e.asPublish with
        | none => rw [List.filterMap_cons_none hp]; rfl
        | some p => have := he2 p hp; rw [hc] at this; simp at this
    rcases step_trace hst with h | ⟨e, h, he1, he2⟩ | h
    · rw [h]; exact ih
    · rw [h]; exact ext e he1 he2
    · rw [h]
      intro pre post hsplit
      rcases split_snoc hsplit with ⟨hx, _, _⟩ | ⟨post₀, h1, h2⟩
      · simp at hx
      · rcases split_snoc h1 with ⟨hx, _, _⟩ | ⟨post₁, h3, h4⟩
        · simp at hx
        · obtain ⟨g1, g2, g3⟩ := ih pre post₁ h3
          refine ⟨g1, g2, ?_⟩
          subst h2 h4
          simp only [published, List.filterMap_append] at g3 ⊢
          simp [g3]

/-- C2. In every reachable state: in the trace, `close(results)` comes after
`wg.Wait()` returned and after each of the `numWorkers` workers ran `wg.Done()`
exactly once, and no send on `results` follows it; whenever `results` is closed
all `numWorkers` workers have ended, each having left its loop on a closed and
drained `jobs` and called `wg.Done()` once; no worker is ever about to send on
a closed `results`; every line sent is either received by the writer or still
buffered, and once the writer has signalled, it has received every line sent. -/
theorem C2_results_closed_after_join (cfg : Config) (s : State) (hr : Reachable cfg s) :
    CloseAfterJoin cfg s.trace ∧
    (s.results.closed = true →
      s.trace.countP Event.isWgWaitReturn = 1 ∧ s.workers.length = cfg.numWorkers ∧
      ∀ (k : Nat) (wk : Worker), s.workers[k]? = some wk →
        wk.pc = .exited ∧ doneCount (k + 1) s.trace = 1 ∧
          s.jobs.closed = true ∧ s.jobs.buf = []) ∧
    (∀ (k : Nat) (wk : Worker) (t : Task) (line : String),
      s.workers[k]? = some wk → wk.pc = .send t line → s.results.closed = false) ∧
    (published s.trace).map (fun e => e.2.2) = received s.trace ++ s.results.buf ∧
    (s.main.handshaken = true →
      received s.trace = (published s.trace).map (fun e => e.2.2)) := by
  have hm := invMain hr
  have hp := invPool hr
  have hf := invFifo hr
  refine ⟨closeAfterJoin hr, ?_, ?_, hf.resultsFifo, ?_⟩
  · intro hc
    have h1 := hm.resultsClosed
    rw [hc] at h1
    have hj : s.main.joined = true := by
      cases hmain : s.main <;> simp [hmain] at h1 ⊢
    have hlen : s.workers.length = cfg.numWorkers := by
      have := hm.workersLen
      cases hmain : s.main <;> simp [hmain] at hj this ⊢ <;> exact this
    refine ⟨?_, hlen, ?_⟩
    · rw [(invCount hr).wgWaitReturn, hj]; rfl
    · intro k wk hk
      have h2 := (hp.workers k wk hk).2.2 hj
      have h3 := (invSeq hr k wk hk).2.1
      have h4 := (hp.workers k wk hk).2.1 (by rw [h2]; rfl)
      rw [h2] at h3
      exact ⟨h2, by simpa using h3, h4⟩
  · intro k wk t line hk hpc
    exact not_send_closed hm hp hk (by rw [hpc]; simp)
  · intro hh
    have h1 := hm.writerSignalled
    rw [hh] at h1
    have h2 : s.writer.pastLoop = true := by
      cases hw : s.writer <;> simp [hw] at h1 ⊢
    have h3 := (invDrain hr h2).2
    have h4 := hf.resultsFifo
    rw [h3, List.append_nil] at h4
    exact h4.symm

/-- C2 at the end of the demo run. -/
theorem C2_results_closed_after_join_witness :
    CloseAfterJoin demoConfig demoFinal.trace ∧
    (demoFinal.results.closed = true →
      demoFinal.trace.countP Event.isWgWaitReturn = 1 ∧
      demoFinal.workers.length = demoConfig.numWorkers ∧
      ∀ (k : Nat) (wk : Worker), demoFinal.workers[k]? = some wk →
        wk.pc = .exited ∧ doneCount (k + 1) demoFinal.trace = 1 ∧
          demoFinal.jobs.closed = true ∧ demoFinal.jobs.buf = []) ∧
    (∀ (k : Nat) (wk : Worker) (t : Task) (line : String),
      demoFinal.workers[k]? = some wk → wk.pc = .send t line →
        demoFinal.results.closed = false) ∧
    (published demoFinal.trace).map (fun e => e.2.2) =
      received demoFinal.trace ++ demoFinal.results.buf ∧
    (demoFinal.main.handshaken = true →
      received demoFinal.trace = (published demoFinal.trace).map (fun e => e.2.2)) :=
  C2_results_closed_after_join demoConfig demoFinal demo_reachable

/-! ## C3 -/

theorem faulty_run : run faultyConfig faultySchedule (init faultyConfig) = some faultyFinal := by
  decide

theorem faulty_reachable : Reachable faultyConfig faultyFinal :=
  run_reachable faultySchedule Reachable.init faulty_run

theorem total_countP (p : Task → Bool) (l : List Task) :
    total (fun t => if p t then 1 else 0) l = l.countP p := by
  induction l with
  | nil => rfl
  | cons x l ih =>
    simp only [total, List.map_cons, List.sum_cons, List.countP_cons] at ih ⊢
    cases p x <;> simp [ih] <;> omega

theorem countP_all {p : Task → Bool} {l : List Task} (h : ∀ t ∈ l, p t = true) :
    l.countP p = l.length :=
  List.countP_eq_length.2 h

theorem countP_none {p : Task → Bool} {l : List Task} (h : ∀ t ∈ l, p t = false) :
    l.countP p = 0 := by
  rw [List.countP_eq_zero]
  intro t ht
  rw [h t ht]; simp

/-- With the file created, every reachable state can be run on until `main` returns. -/
theorem reaches_done {cfg : Config} {s : State} (hc : cfg.createOk = true)
    (hr : Reachable cfg s) :
    ∃ sched s', run cfg sched s = some s' ∧ s'.main = .returned := by
  obtain ⟨sched, s', h1, h2⟩ := reaches_halt (measure cfg s) hr (Nat.le_refl _)
  exact ⟨sched, s', h1, ((halted_cases (run_reachable sched hr h1) h2).2.2 hc).2⟩

/-- When `main` has returned the writer has passed every line sent to `WriteString`. -/
theorem writes_eq_published {cfg : Config} {s : State} (hr : Reachable cfg s)
    (hh : s.main.handshaken = true) :
    (writeCalls s.trace).map Prod.fst =
      (published s.trace).map (fun e => withNewline e.2.2) := by
  have hm := invMain hr
  have hf := invFifo hr
  have h1 := hm.writerSignalled
  rw [hh] at h1
  have h2 : s.writer.pastLoop = true := by
    cases hw : s.writer <;> simp [hw] at h1 ⊢
  have h3 := (invDrain hr h2).2
  have h4 := hf.resultsFifo
  have h5 := hf.writerFifo
  have h6 : s.writer.pending = [] := by
    cases hw : s.writer <;> simp [hw] at h2 ⊢
  rw [h3, List.append_nil] at h4
  rw [h6, List.map_nil, List.append_nil, ← h4, List.map_map] at h5
  exact h5.symm

theorem results_count {cfg : Config} {s : State} (hN : 1 ≤ cfg.numWorkers)
    (hr : Reachable cfg s) (hdone : s.main = .returned) :
    (published s.trace).length = cfg.numJobs - (failing cfg).length ∧
    (recovered s.trace).length = (failing cfg).length := by
  obtain ⟨hex, _, hdeq⟩ := joined_facts hr hN (by rw [hdone]; rfl)
  have hev := invEv hr
  have h1 := drained_work (invWork hr) hex (fun t => if panics cfg t then 1 else 0)
  have h2 := drained_work (invWork hr) hex (fun _ => 1)
  rw [total_countP, total_countP, total_countP, hdeq] at h1
  rw [total_one, total_one, total_one, hdeq, tasksUpTo_length] at h2
  have h3 : ((published s.trace).map (fun e => e.2.1)).countP (panics cfg) = 0 := by
    apply countP_none
    intro t ht
    obtain ⟨e, he, rfl⟩ := List.mem_map.1 ht
    obtain ⟨out, ho, _⟩ := hev.published e he
    simp [panics, ho]
  have h4 : ((recovered s.trace).map Prod.snd).countP (panics cfg) =
      ((recovered s.trace).map Prod.snd).length := by
    apply countP_all
    intro t ht
    obtain ⟨e, he, rfl⟩ := List.mem_map.1 ht
    obtain ⟨r, hr'⟩ := hev.recovered e he
    simp [panics, hr']
  have h5 : (failing cfg).length = (tasksUpTo cfg.numJobs).countP (panics cfg) := by
    rw [failing, List.countP_eq_length_filter]
  simp only [List.length_map] at h2 h4
  omega

/-- C3. `Process` is the parameter `cfg.process`, which may panic; `failing cfg`
is the set `F` of tasks on which it does.  With at least one worker and the
file created, from every reachable state the run can be continued until `main`
returns (DONE), and no state is panicked or aborted; once `main` has returned,
exactly `numJobs - |F|` result lines were sent on `results` and passed to
`WriteString`, and exactly `|F|` failures were logged; and a panic of `Process`
in worker `k` is a step of that worker that sends nothing, logs the failure,
and takes the worker back to its receive on `jobs`. -/
theorem C3_failures_contained (cfg : Config) (hN : 1 ≤ cfg.numWorkers)
    (hc : cfg.createOk = true) (s : State) (hr : Reachable cfg s) :
    (∃ sched s', run cfg sched s = some s' ∧ s'.main = .returned) ∧
    s.panicked = false ∧ s.fatal = false ∧
    (s.main = .returned →
      (published s.trace).length = cfg.numJobs - (failing cfg).length ∧
      (writeCalls s.trace).length = cfg.numJobs - (failing cfg).length ∧
      (recovered s.trace).length = (failing cfg).length) ∧
    (∀ (k : Nat) (wk : Worker) (t : Task) (r : String),
      halted s = false → s.workers[k]? = some wk → wk.pc = .proc t →
      cfg.process t = .error r →
      step cfg (.worker k) s =
        some { s with workers := s.workers.set k { wk with pc := .recv },
                      trace := s.trace ++ [.logRecovered wk.id t r] }) := by
  refine ⟨reaches_done hc hr, (invPool hr).notPanicked, ?_, ?_, ?_⟩
  · cases hf : s.fatal with
    | false => rfl
    | true => have := ((invMain hr).fatalCreate hf).1; rw [hc] at this; simp at this
  · intro hdone
    obtain ⟨h1, h2⟩ := results_count hN hr hdone
    refine ⟨h1, ?_, h2⟩
    have h3 := congrArg List.length (writes_eq_published hr (by rw [hdone]; rfl))
    simp only [List.length_map] at h3
    omega
  · intro k wk t r hh hk hpc hp
    rw [step_worker_eq k hh]
    simp [stepWorker, hk, hpc, hp]

/-- C3 at the end of the faulty demo run: one of two tasks fails, one line results. -/
theorem C3_failures_contained_witness :
    faultyFinal.main = .returned ∧ (failing faultyConfig).length = 1 ∧
    (published faultyFinal.trace).length = 1 ∧
    ((∃ sched s', run faultyConfig sched faultyFinal = some s' ∧ s'.main = .returned) ∧
    faultyFinal.panicked = false ∧ faultyFinal.fatal = false ∧
    (faultyFinal.main = .returned →
      (published faultyFinal.trace).length =
        faultyConfig.numJobs - (failing faultyConfig).length ∧
      (writeCalls faultyFinal.trace).length =
        faultyConfig.numJobs - (failing faultyConfig).length ∧
      (recovered faultyFinal.trace).length = (failing faultyConfig).length) ∧
    (∀ (k : Nat) (wk : Worker) (t : Task) (r : String),
      halted faultyFinal = false → faultyFinal.workers[k]? = some wk → wk.pc = .proc t →
      faultyConfig.process t = .error r →
      step faultyConfig (.worker k) faultyFinal =
        some { faultyFinal with
                 workers := faultyFinal.workers.set k { wk with pc := .recv },
                 trace := faultyFinal.trace ++ [.logRecovered wk.id t r] })) :=
  ⟨by decide, by decide, by decide,
    C3_failures_contained faultyConfig (by decide) (by decide) faultyFinal faulty_reachable⟩

/-! ## C4 -/

theorem reference_run :
    run (referenceConfig true (fun _ => true)) referenceSchedule
      (init (referenceConfig true (fun _ => true))) = some referenceState := by
  decide

theorem reference_reachable : Reachable (referenceConfig true (fun _ => true)) referenceState :=
  run_reachable referenceSchedule Reachable.init reference_run

theorem workerLine_process (upper : String → String) (w : Int) (t : Task) :
    workerLine w (t.Process upper) =
      "Worker " ++ toString w ++ ": Task " ++ toString t.ID ++ " processed: " ++ upper t.Data := by
  have h : (": " ++ "Task " : String) = ": Task " := by decide
  simp only [workerLine, Task.Process]
  rw [← h]
  simp only [String.append_assoc]

/-- The payload of reference task `i` in upper case. -/
theorem asciiUpper_data (i : Nat) (h1 : 1 ≤ i) (h2 : i ≤ 20) :
    asciiUpper (mkTask i).Data = "DATA_ITEM_" ++ toString i := by
  interval_cases i <;> decide

/-- The writer's calls so far are the first lines sent, each with a newline. -/
theorem writes_published {cfg : Config} {s : State} (hr : Reachable cfg s) :
    ∃ rest, (writeCalls s.trace).map Prod.fst ++ rest =
      (published s.trace).map (fun e => withNewline e.2.2) := by
  have hf := invFifo hr
  refine ⟨(s.writer.pending ++ s.results.buf).map withNewline, ?_⟩
  have h1 := congrArg (List.map withNewline) hf.resultsFifo
  rw [List.map_map, List.map_append, hf.writerFifo] at h1
  rw [List.map_append, ← List.append_assoc]
  exact h1.symm

/-- Every task sent on `results` was received from `jobs`, hence sent by `main`. -/
theorem published_task_mem {cfg : Config} {s : State} (hr : Reachable cfg s)
    {e : Nat × Task × String} (he : e ∈ published s.trace) :
    e.2.1 ∈ tasksUpTo cfg.numJobs := by
  have hf := invFifo hr
  have h1 := invWork hr (fun t => if t = e.2.1 then 1 else 0)
  rw [finished_split, total_count, total_count] at h1
  have h2 : 0 < ((published s.trace).map (fun e => e.2.1)).count e.2.1 :=
    List.count_pos_iff.2 (List.mem_map.2 ⟨e, he, rfl⟩)
  have h3 : 0 < ((dequeued s.trace).map Prod.snd).count e.2.1 := by omega
  have h4 : e.2.1 ∈ enqueued s.trace := by
    rw [hf.jobsFifo]
    exact List.mem_append_left _ (List.count_pos_iff.1 h3)
  rw [hf.sentTasks, mem_tasksUpTo] at h4
  obtain ⟨i, hi1, hi2, hi3⟩ := h4
  have h5 : s.main.sent cfg.numJobs ≤ cfg.numJobs := by
    have := hf.enqueueOk
    cases hmain : s.main <;> simp [hmain] at this ⊢
    omega
  exact mem_tasksUpTo.2 ⟨i, hi1, by omega, hi3⟩

/-- Every line on `results` was sent by one of the `numWorkers` workers. -/
theorem published_worker {cfg : Config} {s : State} (hr : Reachable cfg s)
    {e : Nat × Task × String} (he : e ∈ published s.trace) :
    1 ≤ e.1 ∧ e.1 ≤ cfg.numWorkers := by
  have hm := invMain hr
  obtain ⟨ev, hev, hsel⟩ := List.mem_filterMap.1 he
  have h1 : ev.worker = some e.1 := by
    cases ev <;> simp at hsel ⊢
    rw [← hsel]
  have h2 := invIds hr ev hev e.1 h1
  have h3 : s.workers.length ≤ cfg.numWorkers := by
    have := hm.workersLen
    have hs := hm.spawnOk
    rw [this]
    cases hmain : s.main <;> simp only [hmain, MainPc.spawned, MainPc.spawnOk] at hs ⊢ <;> omega
  omega

theorem toString_natCast (n : Nat) : toString ((n : Nat) : Int) = toString n := rfl

/-- C4. For every worker id `w` and task (id `i`, payload `d`) the line a worker
builds is `"Worker w: Task i processed: "` followed by the upper-cased payload;
with the `Process` of the source every line sent on `results` is that line for
its worker and task, and the writer's `WriteString` calls are, in order, the
lines sent, each followed by one newline, one call per line; in the reference
run (4 workers, 20 tasks) every text written is
`"Worker w: Task i processed: DATA_ITEM_i\n"` with `w` in `1..4`, `i` in `1..20`. -/
theorem C4_line_format (upper : String → String) (w i : Int) (d : String) :
    workerLine w (Task.Process upper { ID := i, Data := d }) =
      "Worker " ++ toString w ++ ": Task " ++ toString i ++ " processed: " ++ upper d ∧
    (∀ (cfg : Config) (s : State), cfg.process = sourceProcess upper → Reachable cfg s →
      (∀ e ∈ published s.trace, e.2.2 = workerLine (e.1 : Int) (e.2.1.Process upper)) ∧
      ∃ rest, (writeCalls s.trace).map Prod.fst ++ rest =
        (published s.trace).map (fun e => e.2.2 ++ "\n")) ∧
    (∀ (createOk : Bool) (writeOk : Nat → Bool) (s : State),
      Reachable (referenceConfig createOk writeOk) s →
      ∀ c ∈ writeCalls s.trace, ∃ w i : Nat, 1 ≤ w ∧ w ≤ 4 ∧ 1 ≤ i ∧ i ≤ 20 ∧
        c.1 = "Worker " ++ toString w ++ ": Task " ++ toString i ++
          " processed: DATA_ITEM_" ++ toString i ++ "\n") := by
  have key : ∀ (up : String → String) (cfg : Config) (s : State),
      cfg.process = sourceProcess up → Reachable cfg s →
      ∀ e ∈ published s.trace, e.2.2 = workerLine (e.1 : Int) (e.2.1.Process up) := by
    intro up cfg s hp hr e he
    obtain ⟨out, h1, h2⟩ := (invEv hr).published e he
    rw [hp] at h1
    simp only [sourceProcess, Except.ok.injEq] at h1
    rw [h2, h1]
  refine ⟨workerLine_process upper w _, ?_, ?_⟩
  · intro cfg s hp hr
    exact ⟨key upper cfg s hp hr, writes_published hr⟩
  · intro createOk writeOk s hr c hc
    obtain ⟨rest, hrest⟩ := writes_published hr
    have h1 : c.1 ∈ (published s.trace).map (fun e => withNewline e.2.2) := by
      rw [← hrest]
      exact List.mem_append_left _ (List.mem_map.2 ⟨c, hc, rfl⟩)
    obtain ⟨e, he, hce⟩ := List.mem_map.1 h1
    have h2 := key asciiUpper _ s rfl hr e he
    have h3 := published_task_mem hr he
    obtain ⟨hw1, hw2⟩ := published_worker hr he
    obtain ⟨j, hj1, hj2, hj3⟩ := mem_tasksUpTo.1 h3
    refine ⟨e.1, j, hw1, hw2, hj1, hj2, ?_⟩
    rw [← hce, h2, hj3, workerLine_process, asciiUpper_data j hj1 hj2, withNewline]
    simp only [mkTask, toString_natCast]
    have h : (" processed: DATA_ITEM_" : String) = " processed: " ++ "DATA_ITEM_" := by decide
    rw [h]
    simp only [String.append_assoc]

/-- C4 at a state of the reference run in which the first line is written. -/
theorem C4_line_format_witness :
    ("Worker 1: Task 1 processed: DATA_ITEM_1\n", true) ∈ writeCalls referenceState.trace ∧
    ∃ w i : Nat, 1 ≤ w ∧ w ≤ 4 ∧ 1 ≤ i ∧ i ≤ 20 ∧
      "Worker 1: Task 1 processed: DATA_ITEM_1\n" =
        "Worker " ++ toString w ++ ": Task " ++ toString i ++
          " processed: DATA_ITEM_" ++ toString i ++ "\n" :=
  ⟨by decide,
    (C4_line_format asciiUpper 1 1 "data_item_1").2.2 true (fun _ => true) referenceState
      reference_reachable ("Worker 1: Task 1 processed: DATA_ITEM_1\n", true) (by decide)⟩

/-! ## C5 -/

theorem writeCalls_append (a b : List Event) :
    writeCalls (a ++ b) = writeCalls a ++ writeCalls b := by
  simp only [writeCalls_eq, List.filterMap_append]

/-- The writer handles the record at the head of `results`. -/
theorem writer_record (cfg : Config) (s : State) (res : String) (rest : List String)
    (hh : halted s = false) (hw : s.writer = .loop) (hb : s.results.buf = res :: rest) :
    ∃ sched s', (∀ a ∈ sched, a = Actor.writer) ∧ run cfg sched s = some s' ∧
      halted s' = false ∧ s'.writer = .loop ∧ s'.main = s.main ∧
      s'.results.buf = rest ∧ s'.results.closed = s.results.closed ∧
      s'.trace = s.trace ++ ([Event.recvResult res,
        Event.write (withNewline res) (cfg.writeOk (writeCalls s.trace).length)] ++
        (if cfg.writeOk (writeCalls s.trace).length then [] else [Event.logWriteError])) := by
  obtain ⟨f1, f2, f3⟩ := not_halted hh
  have hk : (writeCalls (s.trace ++ [Event.recvResult res])).length =
      (writeCalls s.trace).length := by
    rw [writeCalls_append]; simp [writeCalls]
  cases hok : cfg.writeOk (writeCalls s.trace).length with
  | true =>
    refine ⟨[.writer, .writer],
      { s with writer := .loop, results := { s.results with buf := rest },
               trace := s.trace ++ [Event.recvResult res] ++
                 [Event.write (withNewline res) true] },
      by simp, ?_, ?_, rfl, rfl, rfl, rfl, ?_⟩
    · simp [run, step, hh, stepWriter, hw, hb, halted, f1, f2, f3, hk, hok]
    · simp [halted, f1, f2, f3]
    · simp
  | false =>
    refine ⟨[.writer, .writer, .writer],
      { s with writer := .loop, results := { s.results with buf := rest },
               trace := s.trace ++ [Event.recvResult res] ++
                 [Event.write (withNewline res) false] ++ [Event.logWriteError] },
      by simp, ?_, ?_, rfl, rfl, rfl, rfl, ?_⟩
    · simp [run, step, hh, stepWriter, hw, hb, halted, f1, f2, f3, hk, hok]
    · simp [halted, f1, f2, f3]
    · simp

/-- The writer handles all the records buffered in `results`, in order. -/
theorem writer_drain (cfg : Config) :
    ∀ (rs : List String) (s : State), halted s = false → s.writer = .loop →
      s.results.buf = rs →
      ∃ sched s', (∀ a ∈ sched, a = Actor.writer) ∧ run cfg sched s = some s' ∧
        halted s' = false ∧ s'.writer = .loop ∧ s'.main = s.main ∧
        s'.results.buf = [] ∧ s'.results.closed = s.results.closed ∧
        s'.trace = s.trace ++ writerEvents cfg.writeOk (writeCalls s.trace).length rs
  | [], s, hh, hw, hb => ⟨[], s, by simp, rfl, hh, hw, rfl, hb, rfl, by simp [writerEvents]⟩
  | res :: rest, s, hh, hw, hb => by
    obtain ⟨sc1, s1, a1, a2, a3, a4, a5, a6, a7, a8⟩ := writer_record cfg s res rest hh hw hb
    obtain ⟨sc2, s2, b1, b2, b3, b4, b5, b6, b7, b8⟩ := writer_drain cfg rest s1 a3 a4 a6
    refine ⟨sc1 ++ sc2, s2, ?_, ?_, b3, b4, by rw [b5, a5], b6, by rw [b7, a7], ?_⟩
    · intro a ha
      rcases List.mem_append.1 ha with h | h
      · exact a1 a h
      · exact b1 a h
    · rw [run_append, a2]; exact b2
    · have hk : (writeCalls s1.trace).length = (writeCalls s.trace).length + 1 := by
        rw [a8, writeCalls_append]
        cases cfg.writeOk (writeCalls s.trace).length <;> simp [writeCalls]
      rw [b8, hk, a8]
      simp only [writerEvents, List.append_assoc]

/-- C5. Once the file is created (`resultWriter` is at its loop), for every
sequence `rs` of strings delivered on `results` before it is closed and every
pattern `cfg.writeOk` of write failures, the writer alone runs to the end of
its body and what it does is exactly `writerEvents`: per record, in channel
order, one `WriteString` of `res + "\n"`, followed by the "File write error"
log line when that write failed, and then the next record; after the last
record it sends `true` on `done`, once.  In every interleaving of the whole
program the write calls are the received records in order, the error log lines
match the failed writes, and `done` is sent at most once and never with `false`. -/
theorem C5_writer_one_write_per_record (cfg : Config) :
    (∀ (rs : List String) (s : State), halted s = false → s.writer = .loop →
      s.main = .recvDone → s.results.buf = rs → s.results.closed = true →
      ∃ sched s', (∀ a ∈ sched, a = Actor.writer) ∧ run cfg sched s = some s' ∧
        s'.writer = .deferClose ∧
        s'.trace = s.trace ++ writerEvents cfg.writeOk (writeCalls s.trace).length rs ++
          [Event.sendDone true, Event.recvDone true]) ∧
    (∀ s : State, Reachable cfg s →
      (received s.trace).map withNewline =
        (writeCalls s.trace).map Prod.fst ++ s.writer.pending.map withNewline ∧
      s.trace.countP Event.isLogWriteError + ind s.writer.owesLog =
        (failedWrites s.trace).length ∧
      s.trace.countP Event.isSendDone = ind s.writer.signalled ∧
      s.trace.countP Event.isSendFalse = 0) := by
  constructor
  · intro rs s hh hw hmain hb hc
    obtain ⟨sc, s1, a1, a2, a3, a4, a5, a6, a7, a8⟩ := writer_drain cfg rs s hh hw hb
    obtain ⟨f1, f2, f3⟩ := not_halted a3
    refine ⟨sc ++ [.writer, .writer],
      { s1 with main := .logCompleted, writer := .deferClose,
                trace := s1.trace ++ [Event.sendDone true, Event.recvDone true] }, ?_, ?_, rfl, ?_⟩
    · intro a ha
      rcases List.mem_append.1 ha with h | h
      · exact a1 a h
      · simpa using h
    · rw [run_append, a2]
      simp [run, step, a3, stepWriter, stepHandshake, a4, a5, hmain, a6, a7, hc, halted, f1, f2]
    · simp only [a8]
  · intro s hr
    have hf := invFifo hr
    have hcnt := invCount hr
    exact ⟨hf.writerFifo, hcnt.logWriteError, hcnt.sendDone, hcnt.sendFalse⟩

/-- C5 at the demo run, from the state in which both result lines are buffered,
`results` is closed and the writer has just created the file. -/
theorem C5_writer_one_write_per_record_witness :
    demoMid.results.buf = ["Worker 1: Task 1 processed: DATA_ITEM_1",
      "Worker 1: Task 2 processed: DATA_ITEM_2"] ∧
    ∃ sched s', (∀ a ∈ sched, a = Actor.writer) ∧ run demoConfig sched demoMid = some s' ∧
      s'.writer = .deferClose ∧
      s'.trace = demoMid.trace ++
        writerEvents demoConfig.writeOk (writeCalls demoMid.trace).length demoMid.results.buf ++
          [Event.sendDone true, Event.recvDone true] :=
  ⟨by decide,
    (C5_writer_one_write_per_record demoConfig).1 demoMid.results.buf demoMid
      (by decide) (by decide) (by decide) rfl (by decide)⟩

end Pipeline
